import Mathlib

/-!
Verification development for the tealviz basic-block extractor
(`src/unnamed/part_000`; the same logic is duplicated verbatim in
`src/src/main.ts`).  The program turns a list of instruction lines into a
control-flow graph of basic blocks.  We embed the instruction classifiers
(`isTerminator`, `getLabelMaybe`, `getBranchMaybe`) and the block
builder/assembler (`extractBlocks`) as executable Lean functions and prove
the specification claims about them.

Successor links of finished blocks are represented as indices into the
finished ordered block list (the JS code stores object references into the
same array; indices are the standard shallow embedding of such intra-array
references).
-/

/-- Decides whether the second character list starts with the first one;
embeds the JS anchored regex tests `/^.../` and `String.startsWith`. -/
def leadsWith : List Char → List Char → Bool
  | [], _ => true
  | _ :: _, [] => false
  | a :: as, b :: bs => a = b && leadsWith as bs

/-- Index of the first element satisfying `p`, if any; embeds JS
`String.indexOf` (restricted to single-character needles) and the position
of `labels[name]` inside the filtered block array. -/
def findIdxOpt (p : α → Bool) : List α → Option Nat
  | [] => none
  | a :: as => if p a then some 0 else (findIdxOpt p as).map (· + 1)

/-- Pairs every element with its position, starting at `i`; bookkeeping used
to model JS array indices of constructing blocks. -/
def withIdx : Nat → List α → List (Nat × α)
  | _, [] => []
  | i, a :: as => (i, a) :: withIdx (i + 1) as

/-- Replaces the element at position `i` by `f` of it (no-op when out of
range); embeds the JS in-place update `arr[i].field = v`. -/
def modifyAt : List α → Nat → (α → α) → List α
  | [], _, _ => []
  | a :: as, 0, f => f a :: as
  | a :: as, i + 1, f => a :: modifyAt as i f

/-- Source `isTerminator`: `line.match(/^(err|return)/)` — an anchored
prefix test for either terminating mnemonic. -/
def isTerminator (line : String) : Bool :=
  leadsWith "err".toList line.toList || leadsWith "return".toList line.toList

/-- Source `getLabelMaybe`:
`const colonIdx = line.split(' ')[0].indexOf(':');` then
`if (colonIdx < 0) return null; return line.slice(0, colonIdx);`.
`split(' ')[0]` is the longest space-free leading chunk of the line. -/
def getLabelMaybe (line : String) : Option String :=
  match findIdxOpt (fun c => c = ':') (line.toList.takeWhile (fun c => c ≠ ' ')) with
  | some i => some (String.mk (line.toList.take i))
  | none => none

/-- Source `getBranchMaybe`: `/^(bnz|bz|b) (.*)/.exec(line)`; on a match it
returns the mnemonic and the target text.  The anchored alternation tries
`bnz`, `bz`, `b`, each followed by one space; `.` does not cross a newline,
so the captured target stops at the first newline character (ordinary lines
contain none). -/
def getBranchMaybe (line : String) : Option (String × String) :=
  if leadsWith "bnz ".toList line.toList then
    some ("bnz", String.mk ((line.toList.drop 4).takeWhile (fun c => c ≠ '\n')))
  else if leadsWith "bz ".toList line.toList then
    some ("bz", String.mk ((line.toList.drop 3).takeWhile (fun c => c ≠ '\n')))
  else if leadsWith "b ".toList line.toList then
    some ("b", String.mk ((line.toList.drop 2).takeWhile (fun c => c ≠ '\n')))
  else none

/-- Source `ConstructingBlock`: `{body, label?, flow?, branch?, dead}`.
`flow?: true | undefined` becomes a `Bool`; absent optional fields become
`none`/`false`. -/
structure CB where
  body : List String
  label : Option String
  flow : Bool
  branch : Option String
  dead : Bool
deriving DecidableEq

/-- Source `Block`: finished block with `contents`, `label`, `dead` and the
two successor pointers, here indices into the finished list. -/
structure Block where
  contents : List String
  label : String
  dead : Bool
  flow : Option Nat
  branch : Option Nat
deriving DecidableEq

/-- State of the single pass in `extractBlocks`: the pushed blocks, the
label table (most recent registration first, so lookup finds the latest
declaration, matching JS object-key overwrite), and the current block.
Registered indices point into the eventual full pushed-block list: the
current block is always the next one pushed. -/
structure BuildSt where
  blocks : List CB
  labels : List (String × Nat)
  cur : CB
deriving DecidableEq

/-- Source `let curBlock: ConstructingBlock = {body: [], dead: false}`. -/
def initCur : CB := ⟨[], none, false, none, false⟩

/-- Builder state before any line is consumed. -/
def initSt : BuildSt := ⟨[], [], initCur⟩

/-- The branch/terminator/ordinary part of the loop body (reached when the
line is not a truthy label): push the line onto the current body, then
either close on a branch (`flow` set iff the mnemonic is not `b`, new block
`dead: !!flow` — transcribed exactly as written in the source), close on a
terminator (new block dead), or just keep accumulating. -/
def stepRest (st : BuildSt) (line : String) : BuildSt :=
  let cur1 : CB := { st.cur with body := st.cur.body ++ [line] }
  match getBranchMaybe line with
  | some (mn, target) =>
    let flow : Bool := decide (mn ≠ "b")
    { st with
      blocks := st.blocks ++ [{ cur1 with flow := flow, branch := some target }],
      cur := ⟨[], none, false, none, flow⟩ }
  | none =>
    if isTerminator line then
      { st with blocks := st.blocks ++ [cur1], cur := ⟨[], none, false, none, true⟩ }
    else
      { st with cur := cur1 }

/-- One iteration of the `for (const line of input)` loop in
`extractBlocks`.  A truthy label (JS `if (label)`: non-null and non-empty)
closes the current block with `flow = true` and opens a labelled block
whose first body line is the label line, registering it in the table; the
registered index `st.blocks.length + 1` is where the new current block will
eventually be pushed. -/
def step (st : BuildSt) (line : String) : BuildSt :=
  match getLabelMaybe line with
  | some label =>
    if label = "" then stepRest st line
    else
      { blocks := st.blocks ++ [{ st.cur with flow := true }],
        labels := (label, st.blocks.length + 1) :: st.labels,
        cur := ⟨[line], some label, false, none, false⟩ }
  | none => stepRest st line

/-- State after the whole input stream has been consumed. -/
def buildState (input : List String) : BuildSt :=
  input.foldl step initSt

/-- Source `blocks.push(curBlock)` after the loop: the full pushed-block
list, including the final (possibly empty) current block. -/
def allBlocks (input : List String) : List CB :=
  (buildState input).blocks ++ [(buildState input).cur]

/-- The label table produced by the pass. -/
def labelTable (input : List String) : List (String × Nat) :=
  (buildState input).labels

/-- Source `labels[name]`: latest registration of `name`, if any, as the
pushed-list index of the constructing block it opened. -/
def lookupLabel (labels : List (String × Nat)) (name : String) : Option Nat :=
  (labels.find? (fun e => e.1 = name)).map (fun e => e.2)

/-- Source `blocks = blocks.filter(block => block.body.length)`, keeping
each survivor paired with its index in the pushed list (the identity the
label table refers to). -/
def survivors (input : List String) : List (Nat × CB) :=
  (withIdx 0 (allBlocks input)).filter (fun p => !p.2.body.isEmpty)

/-- Source `block.label || ` default: JS `||` falls through on the empty
string as well as on `undefined`. -/
def jsOrLabel : Option String → String → String
  | some s, d => if s = "" then d else s
  | none, d => d

/-- Source `blocks.map((block, idx) => new Block(block.body, block.label ||
`b${idx}`, block.dead))`: the finished blocks before linking. -/
def mkBlocks (survs : List (Nat × CB)) : List Block :=
  (withIdx 0 survs).map fun q =>
    ⟨q.2.2.body, jsOrLabel q.2.2.label ("b" ++ Nat.repr q.1), q.2.2.dead, none, none⟩

/-- Source `labels[block.branch]?.realBlock`: look the target up in the
label table and convert the constructing block it names to its position in
the filtered list (its `realBlock`), if it survived. -/
def resolveBranch (labels : List (String × Nat)) (survs : List (Nat × CB))
    (name : String) : Option Nat :=
  match lookupLabel labels name with
  | some orig => findIdxOpt (fun p => p.1 = orig) survs
  | none => none

/-- The exact error string thrown for an unresolved branch target:
`` `branch target not found: '${block.branch}'` `` (the 0x27 quotes are
written via `Char.ofNat`). -/
def targetErr (name : String) : String :=
  "branch target not found: " ++ String.mk [Char.ofNat 39] ++ name ++ String.mk [Char.ofNat 39]

/-- Source linking loop `for (let i = 1; i < blocks.length; i++)` over the
filtered blocks: iteration `i` reads filtered block `i-1` (so the last
filtered block is never processed) and sets `flow` to the next finished
block and `branch` through the label table, throwing when a truthy branch
target has no table entry.  Here `toLink` walks the filtered list without
its last element and `k` is the position being written. -/
def linkBlocks (labels : List (String × Nat)) (survs : List (Nat × CB)) :
    List (Nat × CB) → Nat → List Block → Except String (List Block)
  | [], _, cons => .ok cons
  | p :: rest, k, cons =>
    let cons1 := if p.2.flow then modifyAt cons k (fun b => { b with flow := some (k + 1) }) else cons
    match p.2.branch with
    | some name =>
      if name = "" then linkBlocks labels survs rest (k + 1) cons1
      else
        match resolveBranch labels survs name with
        | some j => linkBlocks labels survs rest (k + 1)
            (modifyAt cons1 k (fun b => { b with branch := some j }))
        | none => .error (targetErr name)
    | none => linkBlocks labels survs rest (k + 1) cons1

/-- Source `extractBlocks`: build, filter the empty blocks, create the
finished blocks, link them, and return them — or fail on the first
unresolved truthy branch target. -/
def extractBlocks (input : List String) : Except String (List Block) :=
  let survs := survivors input
  linkBlocks (labelTable input) survs survs.dropLast 0 (mkBlocks survs)

deriving instance DecidableEq for Except

/-- A line "declares" a label name when the classifier extracts it and it is
JS-truthy (non-empty), which is exactly when the builder registers it. -/
def declaresLabel (line name : String) : Prop :=
  getLabelMaybe line = some name ∧ name ≠ ""

/-- Some line of the stream declares the label `name`. -/
def declaredIn (input : List String) (name : String) : Prop :=
  ∃ line ∈ input, declaresLabel line name

instance : DecidablePred (fun p : String × String => declaresLabel p.1 p.2) :=
  fun _ => instDecidableAnd

instance (line name : String) : Decidable (declaresLabel line name) :=
  instDecidableAnd

instance (input : List String) (name : String) : Decidable (declaredIn input name) :=
  List.decidableBEx _ input

/-! ### Helper lemmas about the list utilities -/

theorem leadsWith_iff (p l : List Char) : leadsWith p l = true ↔ ∃ t, l = p ++ t := by
  induction p generalizing l with
  | nil => simp [leadsWith]
  | cons a as ih =>
    cases l with
    | nil => simp [leadsWith]
    | cons b bs =>
      simp only [leadsWith, Bool.and_eq_true, decide_eq_true_eq, ih, List.cons_append,
        List.cons.injEq]
      constructor
      · rintro ⟨rfl, t, rfl⟩; exact ⟨t, rfl, rfl⟩
      · rintro ⟨t, rfl, rfl⟩; exact ⟨rfl, t, rfl⟩

theorem findIdxOpt_eq_some {p : α → Bool} {l : List α} {i : Nat}
    (h : findIdxOpt p l = some i) : ∃ a, l[i]? = some a ∧ p a = true := by
  induction l generalizing i with
  | nil => simp [findIdxOpt] at h
  | cons a as ih =>
    by_cases hp : p a
    · simp only [findIdxOpt, hp, if_true] at h
      injection h with h
      subst h
      exact ⟨a, by simp, hp⟩
    · simp only [findIdxOpt, hp, Bool.false_eq_true, if_neg, not_false_iff,
        Option.map_eq_some'] at h
      obtain ⟨j, hj, rfl⟩ := h
      obtain ⟨b, hb, hpb⟩ := ih hj
      exact ⟨b, by simpa using hb, hpb⟩

theorem findIdxOpt_isSome_of_mem {p : α → Bool} {l : List α} {a : α}
    (ha : a ∈ l) (hp : p a = true) : (findIdxOpt p l).isSome := by
  induction l with
  | nil => cases ha
  | cons b bs ih =>
    by_cases hb : p b
    · simp [findIdxOpt, hb]
    · rcases List.mem_cons.mp ha with rfl | hmem
      · exact absurd hp (by simp [hb])
      · simp only [findIdxOpt, hb, Bool.false_eq_true, if_neg, not_false_iff]
        have := ih hmem
        cases h : findIdxOpt p bs with
        | none => rw [h] at this; simp at this
        | some j => simp [h]

theorem withIdx_getElem? (l : List α) (i j : Nat) :
    (withIdx i l)[j]? = l[j]?.map (fun a => (i + j, a)) := by
  induction l generalizing i j with
  | nil => rfl
  | cons a as ih =>
    cases j with
    | zero =>
      rw [show withIdx i (a :: as) = (i, a) :: withIdx (i + 1) as from rfl]
      simp
    | succ j =>
      rw [show withIdx i (a :: as) = (i, a) :: withIdx (i + 1) as from rfl]
      simpa [Nat.add_assoc, Nat.add_comm 1 j] using ih (i + 1) j

theorem withIdx_length (l : List α) (i : Nat) : (withIdx i l).length = l.length := by
  induction l generalizing i with
  | nil => rfl
  | cons a as ih => simp [withIdx, ih]

theorem mem_withIdx {l : List α} {i : Nat} {q : Nat × α} (hq : q ∈ withIdx i l) :
    ∃ j, q.1 = i + j ∧ l[j]? = some q.2 := by
  obtain ⟨j, hj⟩ := List.getElem?_of_mem hq
  rw [withIdx_getElem?] at hj
  cases hl : l[j]? with
  | none => rw [hl] at hj; simp at hj
  | some a =>
    rw [hl] at hj
    simp only [Option.map_some'] at hj
    injection hj with hj
    exact ⟨j, by rw [← hj], by rw [hl, ← hj]⟩

theorem withIdx_mem_of_getElem? {l : List α} {j : Nat} {a : α} (h : l[j]? = some a) (i : Nat) :
    (i + j, a) ∈ withIdx i l := by
  have := withIdx_getElem? l i j
  rw [h] at this
  exact List.mem_iff_getElem?.mpr ⟨j, by simpa using this⟩

theorem modifyAt_length (l : List α) (i : Nat) (f : α → α) :
    (modifyAt l i f).length = l.length := by
  induction l generalizing i with
  | nil => rfl
  | cons a as ih =>
    cases i with
    | zero => simp [modifyAt]
    | succ i => simp [modifyAt, ih]

theorem modifyAt_getElem? (l : List α) (i : Nat) (f : α → α) (j : Nat) :
    (modifyAt l i f)[j]? = if j = i then l[i]?.map f else l[j]? := by
  induction l generalizing i j with
  | nil => simp [modifyAt]
  | cons a as ih =>
    cases i with
    | zero =>
      cases j with
      | zero => simp [modifyAt]
      | succ j => simp [modifyAt]
    | succ i =>
      cases j with
      | zero => simp [modifyAt]
      | succ j => simpa [modifyAt, Nat.succ_inj] using ih i j

/-! ### Decimal representation: `Nat.repr` is injective

`mkBlocks` synthesizes labels with the template literal `` `b${idx}` ``,
embedded as `"b" ++ Nat.repr idx`.  For the label-collision analysis we
need that distinct indices synthesize distinct names, i.e. that `Nat.repr`
is injective; core and Mathlib do not provide this, so we prove it via a
digit-value round trip. -/

/-- The list of decimal digit characters of `n`, most significant first;
closed form of core's fuel-based `Nat.toDigitsCore 10`. -/
def decChars (n : Nat) : List Char :=
  if h : n < 10 then [Nat.digitChar (n % 10)]
  else decChars (n / 10) ++ [Nat.digitChar (n % 10)]
decreasing_by exact Nat.div_lt_self (by omega) (by omega)

theorem toDigitsCore_eq_decChars :
    ∀ (f n : Nat) (ds : List Char), n < f →
      Nat.toDigitsCore 10 f n ds = decChars n ++ ds := by
  intro f
  induction f with
  | zero => intro n ds h; omega
  | succ f ih =>
    intro n ds h
    by_cases h10 : n < 10
    · have hdiv : n / 10 = 0 := Nat.div_eq_of_lt h10
      rw [decChars]
      simp [Nat.toDigitsCore, hdiv, h10]
    · have hdiv : ¬ n / 10 = 0 := by
        intro h0
        exact h10 (by omega)
      have hlt : n / 10 < f := by
        have h1 : n / 10 < n := Nat.div_lt_self (by omega) (by omega)
        omega
      rw [decChars]
      simp only [h10, dite_false]
      rw [Nat.toDigitsCore]
      simp only [hdiv, if_neg, not_false_iff]
      rw [ih (n / 10) (Nat.digitChar (n % 10) :: ds) hlt]
      simp

theorem repr_eq_decChars (n : Nat) : (Nat.repr n).data = decChars n := by
  have := toDigitsCore_eq_decChars (n + 1) n [] (by omega)
  simp only [List.append_nil] at this
  show (Nat.toDigits 10 n).asString.data = decChars n
  rw [Nat.toDigits, this]
  rfl

/-- Numeric value of a decimal digit character. -/
def digitVal (c : Char) : Nat := c.toNat - 48

/-- Value of a decimal digit string read left to right starting from
accumulator `a`. -/
def valFrom (a : Nat) (l : List Char) : Nat :=
  l.foldl (fun acc c => 10 * acc + digitVal c) a

theorem digitVal_digitChar : ∀ d < 10, digitVal (Nat.digitChar d) = d := by decide

theorem valFrom_decChars : ∀ (n : Nat) (a : Nat),
    valFrom a (decChars n) = a * 10 ^ (decChars n).length + n := by
  intro n
  induction n using Nat.strong_induction_on with
  | _ n ih =>
    intro a
    by_cases h : n < 10
    · rw [decChars]
      simp only [h, dite_true]
      have hm : n % 10 = n := Nat.mod_eq_of_lt h
      simp [valFrom, hm, digitVal_digitChar n h]
      ring
    · rw [decChars]
      simp only [h, dite_false]
      have hrec : n / 10 < n := Nat.div_lt_self (by omega) (by omega)
      have hmod : n % 10 < 10 := Nat.mod_lt _ (by omega)
      have hv : ∀ a, valFrom a (decChars (n / 10)) =
          a * 10 ^ (decChars (n / 10)).length + n / 10 := ih (n / 10) hrec
      simp only [valFrom, List.foldl_append] at *
      rw [hv a]
      simp only [List.foldl_cons, List.foldl_nil, List.length_append, List.length_cons,
        List.length_nil]
      rw [digitVal_digitChar _ hmod]
      have hdm : 10 * (n / 10) + n % 10 = n := Nat.div_add_mod n 10
      have hpow : 10 ^ ((decChars (n / 10)).length + (0 + 1)) =
          10 ^ (decChars (n / 10)).length * 10 := by
        simp [pow_succ]
      rw [hpow]
      set K := 10 ^ (decChars (n / 10)).length
      ring_nf
      omega

theorem natRepr_injective {n m : Nat} (h : Nat.repr n = Nat.repr m) : n = m := by
  have hd : decChars n = decChars m := by
    rw [← repr_eq_decChars, ← repr_eq_decChars, h]
  have := valFrom_decChars n 0
  rw [hd, valFrom_decChars m 0] at this
  simp at this
  omega

theorem string_data_append (a b : String) : (a ++ b).data = a.data ++ b.data := by
  cases a; cases b; rfl

theorem synth_name_injective {i j : Nat} (h : ("b" ++ Nat.repr i : String) = "b" ++ Nat.repr j) :
    i = j := by
  apply natRepr_injective
  have := congrArg String.data h
  rw [string_data_append, string_data_append] at this
  apply String.ext
  simpa using this

theorem head?_append_left {l : List α} (x : α) (h : l ≠ []) :
    (l ++ [x]).head? = l.head? := by
  cases l with
  | nil => exact absurd rfl h
  | cons a as => rfl

theorem getElem?_append_one (l : List α) (x : α) (i : Nat) :
    (l ++ [x])[i]? = if i = l.length then some x else l[i]? := by
  rcases Nat.lt_trichotomy i l.length with h | h | h
  · rw [List.getElem?_append_left h, if_neg (Nat.ne_of_lt h)]
  · subst h
    rw [List.getElem?_append_right (Nat.le_refl _), if_pos rfl]
    simp
  · rw [List.getElem?_append_right (Nat.le_of_lt h), if_neg (Nat.ne_of_gt h)]
    have h1 : ([x] : List α)[i - l.length]? = none := List.getElem?_eq_none (by simp; omega)
    have h2 : l[i]? = none := List.getElem?_eq_none (by omega)
    rw [h1, h2]

/-! ### Builder step analysis -/

/-- Exhaustive description of one builder step, by line category.  The
four cases are: truthy label, branch, terminator, ordinary line. -/
theorem step_cases (st : BuildSt) (line : String) :
    (∃ label, getLabelMaybe line = some label ∧ label ≠ "" ∧
      step st line = ⟨st.blocks ++ [{ st.cur with flow := true }],
        (label, st.blocks.length + 1) :: st.labels,
        ⟨[line], some label, false, none, false⟩⟩) ∨
    (∃ mn target, getBranchMaybe line = some (mn, target) ∧
      step st line = ⟨st.blocks ++
          [⟨st.cur.body ++ [line], st.cur.label, decide (mn ≠ "b"), some target, st.cur.dead⟩],
        st.labels, ⟨[], none, false, none, decide (mn ≠ "b")⟩⟩) ∨
    (getBranchMaybe line = none ∧ isTerminator line = true ∧
      step st line = ⟨st.blocks ++
          [⟨st.cur.body ++ [line], st.cur.label, st.cur.flow, st.cur.branch, st.cur.dead⟩],
        st.labels, ⟨[], none, false, none, true⟩⟩) ∨
    (getBranchMaybe line = none ∧ isTerminator line = false ∧
      step st line = ⟨st.blocks, st.labels,
        ⟨st.cur.body ++ [line], st.cur.label, st.cur.flow, st.cur.branch, st.cur.dead⟩⟩) := by
  unfold step stepRest
  cases hl : getLabelMaybe line with
  | some label =>
    by_cases hε : label = ""
    · subst hε
      simp only [if_pos rfl]
      cases hb : getBranchMaybe line with
      | some r =>
        cases r with
        | mk mn target => exact .inr (.inl ⟨mn, target, rfl, rfl⟩)
      | none =>
        cases ht : isTerminator line with
        | true => exact .inr (.inr (.inl ⟨rfl, rfl, by simp [ht]⟩))
        | false => exact .inr (.inr (.inr ⟨rfl, rfl, by simp [ht]⟩))
    · simp only [if_neg hε]
      exact .inl ⟨label, rfl, hε, rfl⟩
  | none =>
    cases hb : getBranchMaybe line with
    | some r =>
      cases r with
      | mk mn target => exact .inr (.inl ⟨mn, target, rfl, rfl⟩)
    | none =>
      cases ht : isTerminator line with
      | true => exact .inr (.inr (.inl ⟨rfl, rfl, by simp [ht]⟩))
      | false => exact .inr (.inr (.inr ⟨rfl, rfl, by simp [ht]⟩))

/-- Dedicated description of a truthy-label step. -/
theorem step_label (st : BuildSt) (line label : String)
    (hl : getLabelMaybe line = some label) (hε : label ≠ "") :
    step st line = ⟨st.blocks ++ [{ st.cur with flow := true }],
      (label, st.blocks.length + 1) :: st.labels,
      ⟨[line], some label, false, none, false⟩⟩ := by
  unfold step
  rw [hl]
  simp [hε]

/-- Each step either keeps the pushed-block list or appends one block. -/
theorem step_blocks_extend (st : BuildSt) (line : String) :
    ∃ t, (step st line).blocks = st.blocks ++ t := by
  rcases step_cases st line with ⟨_, _, _, h⟩ | ⟨_, _, _, h⟩ | ⟨_, _, h⟩ | ⟨_, _, h⟩ <;>
    rw [h]
  · exact ⟨_, rfl⟩
  · exact ⟨_, rfl⟩
  · exact ⟨_, rfl⟩
  · exact ⟨[], (List.append_nil _).symm⟩

theorem foldl_blocks_extend (ls : List String) : ∀ st : BuildSt,
    ∃ t, (List.foldl step st ls).blocks = st.blocks ++ t := by
  induction ls with
  | nil => exact fun st => ⟨[], (List.append_nil _).symm⟩
  | cons l ls ih =>
    intro st
    obtain ⟨t1, h1⟩ := step_blocks_extend st l
    obtain ⟨t2, h2⟩ := ih (step st l)
    exact ⟨t1 ++ t2, by rw [List.foldl_cons, h2, h1, List.append_assoc]⟩

theorem foldl_blocks_le (ls : List String) (st : BuildSt) :
    st.blocks.length ≤ (List.foldl step st ls).blocks.length := by
  obtain ⟨t, h⟩ := foldl_blocks_extend ls st
  rw [h]
  simp

/-- Pushed blocks are frozen: positions already filled never change. -/
theorem foldl_blocks_stable (ls : List String) (st : BuildSt) (i : Nat)
    (h : i < st.blocks.length) :
    (List.foldl step st ls).blocks[i]? = st.blocks[i]? := by
  obtain ⟨t, ht⟩ := foldl_blocks_extend ls st
  rw [ht, List.getElem?_append_left h]

/-- An open current block never has its flow flag or branch target set. -/
theorem foldl_cur_clean (ls : List String) : ∀ st : BuildSt,
    st.cur.flow = false → st.cur.branch = none →
    (List.foldl step st ls).cur.flow = false ∧ (List.foldl step st ls).cur.branch = none := by
  induction ls with
  | nil => exact fun st hf hb => ⟨hf, hb⟩
  | cons l ls ih =>
    intro st hf hb
    rcases step_cases st l with ⟨_, _, _, h⟩ | ⟨_, _, _, h⟩ | ⟨_, _, h⟩ | ⟨_, _, h⟩ <;>
      rw [List.foldl_cons, h] <;> apply ih <;> simp [hf, hb]

/-- The current block, once non-empty, survives into the final pushed list
at the position it occupies, with its label, first line and non-emptiness
intact (only its body tail, flow and branch can change before it closes). -/
theorem cur_persist (ls : List String) : ∀ st : BuildSt, st.cur.body ≠ [] →
    ∃ b, ((List.foldl step st ls).blocks ++
        [(List.foldl step st ls).cur])[st.blocks.length]? = some b ∧
      b.label = st.cur.label ∧ b.body.head? = st.cur.body.head? ∧ b.body ≠ [] := by
  induction ls with
  | nil =>
    intro st hne
    refine ⟨st.cur, ?_, rfl, rfl, hne⟩
    simp only [List.foldl_nil]
    rw [getElem?_append_one, if_pos rfl]
  | cons l ls ih =>
    intro st hne
    rw [List.foldl_cons]
    have hfree : ∀ (c : CB), (step st l).blocks = st.blocks ++ [c] →
        c.label = st.cur.label → c.body.head? = st.cur.body.head? → c.body ≠ [] →
        ∃ b, ((List.foldl step (step st l) ls).blocks ++
            [(List.foldl step (step st l) ls).cur])[st.blocks.length]? = some b ∧
          b.label = st.cur.label ∧ b.body.head? = st.cur.body.head? ∧ b.body ≠ [] := by
      intro c hblocks hlab hhead hnonempty
      have hlen : st.blocks.length < (step st l).blocks.length := by
        rw [hblocks]; simp
      have hstable := foldl_blocks_stable ls (step st l) st.blocks.length hlen
      have hval : (step st l).blocks[st.blocks.length]? = some c := by
        rw [hblocks, getElem?_append_one, if_pos rfl]
      have hfin : st.blocks.length < (List.foldl step (step st l) ls).blocks.length :=
        Nat.lt_of_lt_of_le hlen (foldl_blocks_le ls (step st l))
      refine ⟨c, ?_, hlab, hhead, hnonempty⟩
      rw [List.getElem?_append_left hfin, hstable, hval]
    rcases step_cases st l with ⟨lb, _, _, h⟩ | ⟨mn, tg, _, h⟩ | ⟨_, _, h⟩ | ⟨_, _, h⟩
    · exact hfree { st.cur with flow := true } (by rw [h]) rfl rfl hne
    · exact hfree ⟨st.cur.body ++ [l], st.cur.label, decide (mn ≠ "b"), some tg, st.cur.dead⟩
        (by rw [h]) rfl (head?_append_left l hne) (by simp)
    · exact hfree ⟨st.cur.body ++ [l], st.cur.label, st.cur.flow, st.cur.branch, st.cur.dead⟩
        (by rw [h]) rfl (head?_append_left l hne) (by simp)
    · have hblocks : (step st l).blocks = st.blocks := by rw [h]
      have := ih (step st l) (by rw [h]; simp)
      rw [← hblocks]
      obtain ⟨b, hb, hl1, hl2, hl3⟩ := this
      refine ⟨b, hb, ?_, ?_, hl3⟩
      · rw [hl1, h]
      · rw [hl2, h]
        exact head?_append_left l hne

/-! ### Label table invariants -/

/-- Every label-table entry holds a non-empty name and points (within the
pushed blocks followed by the current block) at a block labelled with that
name whose first body line declares it. -/
def GoodIn (st : BuildSt) : Prop :=
  ∀ e ∈ st.labels, e.1 ≠ "" ∧ ∃ b, (st.blocks ++ [st.cur])[e.2]? = some b ∧
    b.label = some e.1 ∧ ∃ l, b.body.head? = some l ∧ getLabelMaybe l = some e.1

theorem goodIn_init : GoodIn initSt := by
  intro e he
  cases he

theorem goodIn_step (st : BuildSt) (line : String) (h : GoodIn st) : GoodIn (step st line) := by
  have transfer : ∀ (c : CB), c.label = st.cur.label →
      (st.cur.body ≠ [] → c.body.head? = st.cur.body.head?) →
      ∀ (cur' : CB) (labels' : List (String × Nat)),
      (∀ e ∈ labels', e ∈ st.labels) →
      GoodIn ⟨st.blocks ++ [c], labels', cur'⟩ := by
    intro c hclab chead cur' labels' hsub e he
    obtain ⟨hne, b, hb, hblab, l, hhead, hdecl⟩ := h e (hsub e he)
    refine ⟨hne, ?_⟩
    rw [getElem?_append_one] at hb
    by_cases hidx : e.2 = st.blocks.length
    · rw [if_pos hidx] at hb
      injection hb with hb
      subst hb
      have hcurne : st.cur.body ≠ [] := by
        intro h0
        rw [h0] at hhead
        cases hhead
      refine ⟨c, ?_, by rw [hclab, hblab], l, by rw [chead hcurne, hhead], hdecl⟩
      show ((st.blocks ++ [c]) ++ [cur'])[e.2]? = some c
      rw [List.getElem?_append_left (by rw [hidx]; simp), hidx, getElem?_append_one, if_pos rfl]
    · rw [if_neg hidx] at hb
      obtain ⟨hlt, -⟩ := List.getElem?_eq_some.mp hb
      refine ⟨b, ?_, hblab, l, hhead, hdecl⟩
      show ((st.blocks ++ [c]) ++ [cur'])[e.2]? = some b
      rw [List.getElem?_append_left (by simp; omega), List.getElem?_append_left hlt]
      exact hb
  rcases step_cases st line with ⟨lb, hl, hε, hs⟩ | ⟨mn, tg, hb1, hs⟩ | ⟨hb1, ht1, hs⟩ | ⟨hb1, ht1, hs⟩
  · rw [hs]
    intro e he
    rcases List.mem_cons.mp he with rfl | hmem
    · refine ⟨hε, ⟨[line], some lb, false, none, false⟩, ?_, rfl, line, rfl, hl⟩
      show ((st.blocks ++ [{ st.cur with flow := true }]) ++
        [(⟨[line], some lb, false, none, false⟩ : CB)])[st.blocks.length + 1]? = _
      rw [getElem?_append_one, if_pos (by simp)]
    · exact transfer { st.cur with flow := true } rfl (fun _ => rfl) _ _ (fun _ hx => hx) e hmem
  · rw [hs]
    exact transfer ⟨st.cur.body ++ [line], st.cur.label, decide (mn ≠ "b"), some tg, st.cur.dead⟩
      rfl (fun hna => head?_append_left line hna) _ _ (fun _ hx => hx)
  · rw [hs]
    exact transfer ⟨st.cur.body ++ [line], st.cur.label, st.cur.flow, st.cur.branch, st.cur.dead⟩
      rfl (fun hna => head?_append_left line hna) _ _ (fun _ hx => hx)
  · rw [hs]
    intro e he
    obtain ⟨hne, b, hb, hblab, l, hhead, hdecl⟩ := h e he
    refine ⟨hne, ?_⟩
    rw [getElem?_append_one] at hb
    by_cases hidx : e.2 = st.blocks.length
    · rw [if_pos hidx] at hb
      injection hb with hb
      subst hb
      have hcurne : st.cur.body ≠ [] := by
        intro h0
        rw [h0] at hhead
        cases hhead
      refine ⟨⟨st.cur.body ++ [line], st.cur.label, st.cur.flow, st.cur.branch, st.cur.dead⟩,
        ?_, hblab, l, by rw [show (⟨st.cur.body ++ [line], st.cur.label, st.cur.flow,
          st.cur.branch, st.cur.dead⟩ : CB).body = st.cur.body ++ [line] from rfl,
          head?_append_left line hcurne, hhead], hdecl⟩
      show (st.blocks ++ [(⟨st.cur.body ++ [line], st.cur.label, st.cur.flow, st.cur.branch,
        st.cur.dead⟩ : CB)])[e.2]? = _
      rw [getElem?_append_one, if_pos hidx]
    · rw [if_neg hidx] at hb
      refine ⟨b, ?_, hblab, l, hhead, hdecl⟩
      show (st.blocks ++ [(⟨st.cur.body ++ [line], st.cur.label, st.cur.flow, st.cur.branch,
        st.cur.dead⟩ : CB)])[e.2]? = some b
      rw [getElem?_append_one, if_neg hidx]
      exact hb

theorem goodIn_foldl (ls : List String) : ∀ st : BuildSt, GoodIn st →
    GoodIn (List.foldl step st ls) := by
  induction ls with
  | nil => exact fun st h => h
  | cons l ls ih => exact fun st h => ih (step st l) (goodIn_step st l h)

theorem goodIn_buildState (input : List String) : GoodIn (buildState input) :=
  goodIn_foldl input initSt goodIn_init

theorem lookup_cons (e : String × Nat) (labels : List (String × Nat)) (name : String) :
    lookupLabel (e :: labels) name = if e.1 = name then some e.2 else lookupLabel labels name := by
  unfold lookupLabel
  by_cases h : e.1 = name
  · rw [List.find?_cons_of_pos _ (by simpa using h), if_pos h]
    rfl
  · rw [List.find?_cons_of_neg _ (by simpa using h), if_neg h]

/-- Table entries survive every later step (they can only be shadowed by a
new entry for the same name). -/
theorem lookup_isSome_foldl (ls : List String) : ∀ (st : BuildSt) (name : String),
    (lookupLabel st.labels name).isSome →
    (lookupLabel (List.foldl step st ls).labels name).isSome := by
  induction ls with
  | nil => exact fun st name h => h
  | cons l ls ih =>
    intro st name h
    rw [List.foldl_cons]
    apply ih
    rcases step_cases st l with ⟨lb, _, _, hs⟩ | ⟨_, _, _, hs⟩ | ⟨_, _, hs⟩ | ⟨_, _, hs⟩ <;>
      rw [hs] <;> try exact h
    rw [show (⟨st.blocks ++ [{ st.cur with flow := true }],
      (lb, st.blocks.length + 1) :: st.labels,
      ⟨[l], some lb, false, none, false⟩⟩ : BuildSt).labels =
        (lb, st.blocks.length + 1) :: st.labels from rfl, lookup_cons]
    by_cases hlb : lb = name
    · simp [hlb]
    · simpa [hlb] using h

/-- A label declared anywhere in the stream ends up in the table. -/
theorem declared_lookup (ls : List String) : ∀ (st : BuildSt) (line name : String),
    line ∈ ls → getLabelMaybe line = some name → name ≠ "" →
    (lookupLabel (List.foldl step st ls).labels name).isSome := by
  induction ls with
  | nil => intro st line name h; cases h
  | cons l ls ih =>
    intro st line name hmem hlab hne
    rw [List.foldl_cons]
    rcases List.mem_cons.mp hmem with rfl | hmem'
    · apply lookup_isSome_foldl
      rw [step_label st line name hlab hne]
      rw [show (⟨st.blocks ++ [{ st.cur with flow := true }],
        (name, st.blocks.length + 1) :: st.labels,
        ⟨[line], some name, false, none, false⟩⟩ : BuildSt).labels =
          (name, st.blocks.length + 1) :: st.labels from rfl, lookup_cons]
      simp
    · exact ih (step st l) line name hmem' hlab hne

/-- Lookup of a name is unchanged by steps over lines that do not declare
it. -/
theorem lookup_stable (ls : List String) : ∀ (st : BuildSt) (name : String),
    (∀ l ∈ ls, getLabelMaybe l ≠ some name) →
    lookupLabel (List.foldl step st ls).labels name = lookupLabel st.labels name := by
  induction ls with
  | nil => exact fun st name _ => rfl
  | cons l ls ih =>
    intro st name hnone
    rw [List.foldl_cons, ih (step st l) name (fun x hx => hnone x (List.mem_cons_of_mem l hx))]
    rcases step_cases st l with ⟨lb, hl, _, hs⟩ | ⟨_, _, _, hs⟩ | ⟨_, _, hs⟩ | ⟨_, _, hs⟩ <;>
      (rw [hs]; try rfl)
    rw [show (⟨st.blocks ++ [{ st.cur with flow := true }],
      (lb, st.blocks.length + 1) :: st.labels,
      ⟨[l], some lb, false, none, false⟩⟩ : BuildSt).labels =
        (lb, st.blocks.length + 1) :: st.labels from rfl, lookup_cons]
    have : lb ≠ name := by
      intro hcontra
      exact hnone l (List.mem_cons_self l ls) (by rw [hl, hcontra])
    rw [if_neg this]

/-- Every table entry arises from a line of the stream that declares it. -/
theorem labels_from_lines (ls : List String) : ∀ (st : BuildSt) (e : String × Nat),
    e ∈ (List.foldl step st ls).labels →
    e ∈ st.labels ∨ ∃ line ∈ ls, getLabelMaybe line = some e.1 ∧ e.1 ≠ "" := by
  induction ls with
  | nil => exact fun st e h => .inl h
  | cons l ls ih =>
    intro st e he
    rw [List.foldl_cons] at he
    rcases ih (step st l) e he with hmem | ⟨line, hline, hlab, hne⟩
    · rcases step_cases st l with ⟨lb, hl, hε, hs⟩ | ⟨_, _, _, hs⟩ | ⟨_, _, hs⟩ | ⟨_, _, hs⟩ <;>
        rw [hs] at hmem
      · rcases List.mem_cons.mp hmem with rfl | hold
        · exact .inr ⟨l, List.mem_cons_self l ls, hl, hε⟩
        · exact .inl hold
      · exact .inl hmem
      · exact .inl hmem
      · exact .inl hmem
    · exact .inr ⟨line, List.mem_cons_of_mem l hline, hlab, hne⟩

/-- Every labelled block got its label from a line of the stream that
declares it (and the label is non-empty). -/
theorem block_label_from (ls : List String) : ∀ (st : BuildSt) (b : CB),
    b ∈ (List.foldl step st ls).blocks ++ [(List.foldl step st ls).cur] →
    ∀ nm, b.label = some nm →
    (∃ b0 ∈ st.blocks ++ [st.cur], b0.label = some nm) ∨
    ∃ line ∈ ls, getLabelMaybe line = some nm ∧ nm ≠ "" := by
  induction ls with
  | nil => exact fun st b hb nm hnm => .inl ⟨b, hb, hnm⟩
  | cons l ls ih =>
    intro st b hb nm hnm
    rw [List.foldl_cons] at hb
    rcases ih (step st l) b hb nm hnm with ⟨b0, hb0, hb0lab⟩ | ⟨line, hline, hlab, hne⟩
    · rcases step_cases st l with ⟨lb, hl, hε, hs⟩ | ⟨mn, tg, _, hs⟩ | ⟨_, _, hs⟩ | ⟨_, _, hs⟩ <;>
        rw [hs] at hb0 <;> simp only [List.mem_append, List.mem_singleton] at hb0
      · rcases hb0 with hb0 | rfl
        · rcases hb0 with hb0 | rfl
          · exact .inl ⟨b0, List.mem_append_left _ hb0, hb0lab⟩
          · exact .inl ⟨st.cur, List.mem_append_right _ (List.mem_singleton_self _),
              by simpa using hb0lab⟩
        · refine .inr ⟨l, List.mem_cons_self l ls, ?_, ?_⟩
          · rw [hl]
            simpa using hb0lab
          · simp only [CB.label] at hb0lab
            injection hb0lab with hx
            subst hx
            exact hε
      · rcases hb0 with hb0 | rfl
        · rcases hb0 with hb0 | rfl
          · exact .inl ⟨b0, List.mem_append_left _ hb0, hb0lab⟩
          · exact .inl ⟨st.cur, List.mem_append_right _ (List.mem_singleton_self _),
              by simpa using hb0lab⟩
        · simp at hb0lab
      · rcases hb0 with hb0 | rfl
        · rcases hb0 with hb0 | rfl
          · exact .inl ⟨b0, List.mem_append_left _ hb0, hb0lab⟩
          · exact .inl ⟨st.cur, List.mem_append_right _ (List.mem_singleton_self _),
              by simpa using hb0lab⟩
        · simp at hb0lab
      · rcases hb0 with hb0 | rfl
        · exact .inl ⟨b0, List.mem_append_left _ hb0, hb0lab⟩
        · exact .inl ⟨st.cur, List.mem_append_right _ (List.mem_singleton_self _),
            by simpa using hb0lab⟩
    · exact .inr ⟨line, List.mem_cons_of_mem l hline, hlab, hne⟩

/-- The empty name is never in the table: `if (label)` skips it. -/
theorem lookup_empty_none (input : List String) :
    lookupLabel (labelTable input) "" = none := by
  unfold lookupLabel
  rw [List.find?_eq_none.mpr]
  · rfl
  · intro e he
    have := goodIn_buildState input e he
    simp [this.1]

/-! ### Linking loop lemmas -/

/-- The flow update an iteration performs before looking at the branch. -/
def flowUpd (p : Nat × CB) (k : Nat) (cons : List Block) : List Block :=
  if p.2.flow then modifyAt cons k (fun b => { b with flow := some (k + 1) }) else cons

theorem linkBlocks_cons (labels : List (String × Nat)) (survs : List (Nat × CB))
    (p : Nat × CB) (rest : List (Nat × CB)) (k : Nat) (cons : List Block) :
    linkBlocks labels survs (p :: rest) k cons =
      (match p.2.branch with
       | some name =>
         if name = "" then linkBlocks labels survs rest (k + 1) (flowUpd p k cons)
         else
           match resolveBranch labels survs name with
           | some j => linkBlocks labels survs rest (k + 1)
               (modifyAt (flowUpd p k cons) k (fun b => { b with branch := some j }))
           | none => .error (targetErr name)
       | none => linkBlocks labels survs rest (k + 1) (flowUpd p k cons)) := rfl

theorem flowUpd_length (p : Nat × CB) (k : Nat) (cons : List Block) :
    (flowUpd p k cons).length = cons.length := by
  unfold flowUpd
  split <;> simp [modifyAt_length]

theorem flowUpd_getElem?_ne (p : Nat × CB) (k : Nat) (cons : List Block) (i : Nat)
    (h : i ≠ k) : (flowUpd p k cons)[i]? = cons[i]? := by
  unfold flowUpd
  split
  · rw [modifyAt_getElem?, if_neg h]
  · rfl

theorem flowUpd_getElem?_self (p : Nat × CB) (k : Nat) (cons : List Block) :
    (flowUpd p k cons)[k]? =
      if p.2.flow then cons[k]?.map (fun b => { b with flow := some (k + 1) }) else cons[k]? := by
  unfold flowUpd
  split <;> simp [modifyAt_getElem?]

/-- A single iteration fails exactly on a truthy branch name missing from
the label table (as transported to the filtered block list). -/
def linkFails (labels : List (String × Nat)) (survs : List (Nat × CB)) (p : Nat × CB) : Prop :=
  ∃ name, p.2.branch = some name ∧ name ≠ "" ∧ resolveBranch labels survs name = none

/-- A successful run never changes the number of finished blocks. -/
theorem link_ok_length (labels : List (String × Nat)) (survs : List (Nat × CB)) :
    ∀ (tl : List (Nat × CB)) (k : Nat) (cons out : List Block),
    linkBlocks labels survs tl k cons = .ok out → out.length = cons.length := by
  intro tl
  induction tl with
  | nil =>
    intro k cons out h
    injection h with h
    rw [h]
  | cons p rest ih =>
    intro k cons out h
    rw [linkBlocks_cons] at h
    cases hbr : p.2.branch with
    | none =>
      simp only [hbr] at h
      rw [ih (k + 1) _ out h, flowUpd_length]
    | some name =>
      simp only [hbr] at h
      by_cases hn : name = ""
      · rw [if_pos hn] at h
        rw [ih (k + 1) _ out h, flowUpd_length]
      · rw [if_neg hn] at h
        cases hres : resolveBranch labels survs name with
        | some j =>
          simp only [hres] at h
          rw [ih (k + 1) _ out h, modifyAt_length, flowUpd_length]
        | none =>
          simp only [hres] at h
          cases h

theorem linkBlocks_cons_nobranch (labels : List (String × Nat)) (survs : List (Nat × CB))
    (p : Nat × CB) (rest : List (Nat × CB)) (k : Nat) (cons : List Block)
    (h : p.2.branch = none) :
    linkBlocks labels survs (p :: rest) k cons =
      linkBlocks labels survs rest (k + 1) (flowUpd p k cons) := by
  rw [linkBlocks_cons, h]

theorem linkBlocks_cons_skip (labels : List (String × Nat)) (survs : List (Nat × CB))
    (p : Nat × CB) (rest : List (Nat × CB)) (k : Nat) (cons : List Block)
    (h : p.2.branch = some "") :
    linkBlocks labels survs (p :: rest) k cons =
      linkBlocks labels survs rest (k + 1) (flowUpd p k cons) := by
  rw [linkBlocks_cons, h]
  simp

theorem linkBlocks_cons_branch (labels : List (String × Nat)) (survs : List (Nat × CB))
    (p : Nat × CB) (rest : List (Nat × CB)) (k : Nat) (cons : List Block)
    (name : String) (j : Nat) (h : p.2.branch = some name) (hn : name ≠ "")
    (hres : resolveBranch labels survs name = some j) :
    linkBlocks labels survs (p :: rest) k cons =
      linkBlocks labels survs rest (k + 1)
        (modifyAt (flowUpd p k cons) k (fun b => { b with branch := some j })) := by
  rw [linkBlocks_cons, h]
  simp only [if_neg hn, hres]

theorem linkBlocks_cons_error (labels : List (String × Nat)) (survs : List (Nat × CB))
    (p : Nat × CB) (rest : List (Nat × CB)) (k : Nat) (cons : List Block)
    (name : String) (h : p.2.branch = some name) (hn : name ≠ "")
    (hres : resolveBranch labels survs name = none) :
    linkBlocks labels survs (p :: rest) k cons = .error (targetErr name) := by
  rw [linkBlocks_cons, h]
  simp only [if_neg hn, hres]

/-- Master description of a successful linking run: the length is kept,
positions outside the processed window are untouched, and each processed
position `k + m` gets exactly the flow/branch updates dictated by the
`m`-th walked block, all other fields preserved. -/
theorem link_ok_master (labels : List (String × Nat)) (survs : List (Nat × CB)) :
    ∀ (tl : List (Nat × CB)) (k : Nat) (cons out : List Block),
    k + tl.length ≤ cons.length →
    linkBlocks labels survs tl k cons = .ok out →
    out.length = cons.length ∧
    (∀ i, i < k ∨ k + tl.length ≤ i → out[i]? = cons[i]?) ∧
    (∀ m p, tl[m]? = some p →
      ∃ b0 b, cons[k + m]? = some b0 ∧ out[k + m]? = some b ∧
        b.contents = b0.contents ∧ b.label = b0.label ∧ b.dead = b0.dead ∧
        b.flow = (if p.2.flow then some (k + m + 1) else b0.flow) ∧
        ((∃ name j, p.2.branch = some name ∧ name ≠ "" ∧
            resolveBranch labels survs name = some j ∧ b.branch = some j) ∨
         ((∀ name, p.2.branch = some name → name = "") ∧ b.branch = b0.branch))) := by
  intro tl
  induction tl with
  | nil =>
    intro k cons out hlen h
    injection h with h
    subst h
    exact ⟨rfl, fun i _ => rfl, fun m p hm => by simp at hm⟩
  | cons p rest ih =>
    intro k cons out hlen h
    have hk : k < cons.length := by
      simp only [List.length_cons] at hlen
      omega
    obtain ⟨b0k, hb0k⟩ : ∃ b0, cons[k]? = some b0 :=
      ⟨cons[k], List.getElem?_eq_getElem hk⟩
    have main : ∀ (g : Block → Block) (cons' : List Block),
        cons'.length = cons.length →
        (∀ i, cons'[i]? = if i = k then cons[k]?.map g else cons[i]?) →
        (∀ b, (g b).contents = b.contents ∧ (g b).label = b.label ∧ (g b).dead = b.dead ∧
          (g b).flow = (if p.2.flow then some (k + 1) else b.flow)) →
        ((∃ name j, p.2.branch = some name ∧ name ≠ "" ∧
            resolveBranch labels survs name = some j ∧ ∀ b, (g b).branch = some j) ∨
         ((∀ name, p.2.branch = some name → name = "") ∧ ∀ b, (g b).branch = b.branch)) →
        linkBlocks labels survs rest (k + 1) cons' = .ok out →
        out.length = cons.length ∧
        (∀ i, i < k ∨ k + (p :: rest).length ≤ i → out[i]? = cons[i]?) ∧
        (∀ m q, (p :: rest)[m]? = some q →
          ∃ b0 b, cons[k + m]? = some b0 ∧ out[k + m]? = some b ∧
            b.contents = b0.contents ∧ b.label = b0.label ∧ b.dead = b0.dead ∧
            b.flow = (if q.2.flow then some (k + m + 1) else b0.flow) ∧
            ((∃ name j, q.2.branch = some name ∧ name ≠ "" ∧
                resolveBranch labels survs name = some j ∧ b.branch = some j) ∨
             ((∀ name, q.2.branch = some name → name = "") ∧ b.branch = b0.branch))) := by
      intro g cons' hclen hci hgf hgb hrec
      have hrlen : (k + 1) + rest.length ≤ cons'.length := by
        rw [hclen]
        simp only [List.length_cons] at hlen
        omega
      obtain ⟨ihlen, ihunt, ihpart⟩ := ih (k + 1) cons' out hrlen hrec
      refine ⟨by rw [ihlen, hclen], ?_, ?_⟩
      · intro i hi
        have hne : i ≠ k := by
          rcases hi with hi | hi
          · omega
          · simp only [List.length_cons] at hi
            omega
        have h1 : out[i]? = cons'[i]? := by
          apply ihunt
          rcases hi with hi | hi
          · left; omega
          · right
            simp only [List.length_cons] at hi
            omega
        rw [h1, hci i, if_neg hne]
      · intro m q hm
        cases m with
        | zero =>
          obtain rfl : p = q := by simpa using hm
          have hout : out[k]? = cons'[k]? := ihunt k (.inl (by omega))
          have hcv : cons'[k]? = some (g b0k) := by
            rw [hci k, if_pos rfl, hb0k]
            rfl
          obtain ⟨hgc, hgl, hgd, hgflow⟩ := hgf b0k
          refine ⟨b0k, g b0k, by simpa using hb0k, by simpa using hout.trans hcv,
            hgc, hgl, hgd, by simpa using hgflow, ?_⟩
          rcases hgb with ⟨name, j, hbr2, hn, hres, hset⟩ | ⟨hnone, hkeep⟩
          · exact .inl ⟨name, j, hbr2, hn, hres, hset b0k⟩
          · exact .inr ⟨hnone, hkeep b0k⟩
        | succ m' =>
          have hm' : rest[m']? = some q := by simpa using hm
          obtain ⟨b0, b, hb0, hb, hcont, hlab, hdead, hflow, hbranch⟩ := ihpart m' q hm'
          have hne : (k + 1) + m' ≠ k := by omega
          rw [hci _, if_neg hne] at hb0
          have hidx : k + 1 + m' = k + (m' + 1) := by omega
          rw [hidx] at hb0 hb
          refine ⟨b0, b, hb0, hb, hcont, hlab, hdead, ?_, hbranch⟩
          rw [hflow, hidx]
    have flow_pt : ∀ i, (flowUpd p k cons)[i]? =
        if i = k then cons[k]?.map
          (fun b => if p.2.flow then { b with flow := some (k + 1) } else b)
        else cons[i]? := by
      intro i
      by_cases hik : i = k
      · subst hik
        rw [flowUpd_getElem?_self, if_pos rfl, hb0k]
        by_cases hf : p.2.flow <;> simp [hf]
      · rw [flowUpd_getElem?_ne _ _ _ _ hik, if_neg hik]
    have flow_fields : ∀ b : Block,
        ((if p.2.flow then { b with flow := some (k + 1) } else b) : Block).contents = b.contents ∧
        ((if p.2.flow then { b with flow := some (k + 1) } else b) : Block).label = b.label ∧
        ((if p.2.flow then { b with flow := some (k + 1) } else b) : Block).dead = b.dead ∧
        ((if p.2.flow then { b with flow := some (k + 1) } else b) : Block).flow =
          (if p.2.flow then some (k + 1) else b.flow) := by
      intro b
      by_cases hf : p.2.flow <;> simp [hf]
    have flow_branch : ∀ b : Block,
        ((if p.2.flow then { b with flow := some (k + 1) } else b) : Block).branch = b.branch := by
      intro b
      by_cases hf : p.2.flow <;> simp [hf]
    cases hbr : p.2.branch with
    | none =>
      rw [linkBlocks_cons_nobranch labels survs p rest k cons hbr] at h
      exact main _ (flowUpd p k cons) (flowUpd_length p k cons) flow_pt flow_fields
        (.inr ⟨(fun name hc => by rw [hbr] at hc; exact Option.noConfusion hc), flow_branch⟩) h
    | some name =>
      by_cases hn : name = ""
      · subst hn
        rw [linkBlocks_cons_skip labels survs p rest k cons hbr] at h
        refine main _ (flowUpd p k cons) (flowUpd_length p k cons) flow_pt flow_fields
          (.inr ⟨fun nm hnm => ?_, flow_branch⟩) h
        rw [hbr] at hnm
        injection hnm with e
        rw [← e]
      · cases hres : resolveBranch labels survs name with
        | some j =>
          rw [linkBlocks_cons_branch labels survs p rest k cons name j hbr hn hres] at h
          refine main
            (fun b => { (if p.2.flow then { b with flow := some (k + 1) } else b) with
              branch := some j })
            (modifyAt (flowUpd p k cons) k (fun b => { b with branch := some j }))
            (by rw [modifyAt_length, flowUpd_length]) ?_ ?_
            (.inl ⟨name, j, hbr, hn, hres, fun b => rfl⟩) h
          · intro i
            rw [modifyAt_getElem?]
            by_cases hik : i = k
            · rw [if_pos hik, if_pos hik, flow_pt k, if_pos rfl, hb0k]
              rfl
            · rw [if_neg hik, if_neg hik, flow_pt i, if_neg hik]
          · intro b
            by_cases hf : p.2.flow <;> simp [hf]
        | none =>
          rw [linkBlocks_cons_error labels survs p rest k cons name hbr hn hres] at h
          cases h

/-- If no walked block has an unresolved truthy branch target, linking
succeeds. -/
theorem link_ok_of_no_fail (labels : List (String × Nat)) (survs : List (Nat × CB)) :
    ∀ (tl : List (Nat × CB)) (k : Nat) (cons : List Block),
    (∀ p ∈ tl, ¬ linkFails labels survs p) →
    ∃ out, linkBlocks labels survs tl k cons = .ok out := by
  intro tl
  induction tl with
  | nil => exact fun k cons _ => ⟨cons, rfl⟩
  | cons p rest ih =>
    intro k cons hok
    have hrest : ∀ q ∈ rest, ¬ linkFails labels survs q :=
      fun q hq => hok q (List.mem_cons_of_mem p hq)
    cases hbr : p.2.branch with
    | none =>
      rw [linkBlocks_cons_nobranch labels survs p rest k cons hbr]
      exact ih (k + 1) (flowUpd p k cons) hrest
    | some name =>
      by_cases hn : name = ""
      · subst hn
        rw [linkBlocks_cons_skip labels survs p rest k cons hbr]
        exact ih (k + 1) (flowUpd p k cons) hrest
      · cases hres : resolveBranch labels survs name with
        | some j =>
          rw [linkBlocks_cons_branch labels survs p rest k cons name j hbr hn hres]
          exact ih (k + 1) _ hrest
        | none =>
          exact absurd ⟨name, hbr, hn, hres⟩ (hok p (List.mem_cons_self p rest))

/-- If some walked block has an unresolved truthy branch target, linking
fails, and the error names one such target. -/
theorem link_error_of_fail (labels : List (String × Nat)) (survs : List (Nat × CB)) :
    ∀ (tl : List (Nat × CB)) (k : Nat) (cons : List Block),
    (∃ p ∈ tl, linkFails labels survs p) →
    ∃ name, name ≠ "" ∧
      (∃ q ∈ tl, q.2.branch = some name ∧ resolveBranch labels survs name = none) ∧
      linkBlocks labels survs tl k cons = .error (targetErr name) := by
  intro tl
  induction tl with
  | nil =>
    intro k cons h
    obtain ⟨p, hp, -⟩ := h
    cases hp
  | cons p rest ih =>
    intro k cons hex
    by_cases hp : linkFails labels survs p
    · obtain ⟨name, hbr, hn, hres⟩ := hp
      exact ⟨name, hn, ⟨p, List.mem_cons_self p rest, hbr, hres⟩,
        linkBlocks_cons_error labels survs p rest k cons name hbr hn hres⟩
    · have hrest : ∃ q ∈ rest, linkFails labels survs q := by
        obtain ⟨q, hq, hfail⟩ := hex
        rcases List.mem_cons.mp hq with rfl | hq'
        · exact absurd hfail hp
        · exact ⟨q, hq', hfail⟩
      cases hbr : p.2.branch with
      | none =>
        obtain ⟨name, hn, ⟨q, hq, hqb, hqres⟩, herr⟩ := ih (k + 1) (flowUpd p k cons) hrest
        refine ⟨name, hn, ⟨q, List.mem_cons_of_mem p hq, hqb, hqres⟩, ?_⟩
        rw [linkBlocks_cons_nobranch labels survs p rest k cons hbr]
        exact herr
      | some nm =>
        by_cases hn0 : nm = ""
        · subst hn0
          obtain ⟨name, hn, ⟨q, hq, hqb, hqres⟩, herr⟩ := ih (k + 1) (flowUpd p k cons) hrest
          refine ⟨name, hn, ⟨q, List.mem_cons_of_mem p hq, hqb, hqres⟩, ?_⟩
          rw [linkBlocks_cons_skip labels survs p rest k cons hbr]
          exact herr
        · cases hres : resolveBranch labels survs nm with
          | some j =>
            obtain ⟨name, hn, ⟨q, hq, hqb, hqres⟩, herr⟩ := ih (k + 1) _ hrest
            refine ⟨name, hn, ⟨q, List.mem_cons_of_mem p hq, hqb, hqres⟩, ?_⟩
            rw [linkBlocks_cons_branch labels survs p rest k cons nm j hbr hn0 hres]
            exact herr
          | none => exact absurd ⟨nm, hbr, hn0, hres⟩ hp

/-! ### Bridging `extractBlocks` to the loop lemmas -/

theorem extractBlocks_def (input : List String) :
    extractBlocks input = linkBlocks (labelTable input) (survivors input)
      ((survivors input).dropLast) 0 (mkBlocks (survivors input)) := rfl

theorem mkBlocks_length (survs : List (Nat × CB)) :
    (mkBlocks survs).length = survs.length := by
  unfold mkBlocks
  rw [List.length_map, withIdx_length]

theorem mkBlocks_getElem? (survs : List (Nat × CB)) (i : Nat) :
    (mkBlocks survs)[i]? = (survs[i]?).map
      (fun p => ⟨p.2.body, jsOrLabel p.2.label ("b" ++ Nat.repr i), p.2.dead, none, none⟩) := by
  unfold mkBlocks
  rw [List.getElem?_map, withIdx_getElem?]
  cases survs[i]? <;> simp

theorem dropLast_getElem? (l : List α) (m : Nat) (h : m + 1 < l.length) :
    l.dropLast[m]? = l[m]? := by
  rw [List.dropLast_eq_take, List.getElem?_take, if_pos (by omega)]

/-- Each survivor entry records a block of the pushed list at its original
index, and its body is non-empty. -/
theorem survivors_entry (input : List String) {j : Nat} {q : Nat × CB}
    (h : (survivors input)[j]? = some q) :
    (allBlocks input)[q.1]? = some q.2 ∧ q.2.body ≠ [] := by
  have hmem : q ∈ survivors input := List.mem_iff_getElem?.mpr ⟨j, h⟩
  unfold survivors at hmem
  have h1 : q ∈ withIdx 0 (allBlocks input) := List.mem_of_mem_filter hmem
  have h2 := List.of_mem_filter hmem
  obtain ⟨m, hm1, hm2⟩ := mem_withIdx h1
  constructor
  · rw [hm1]
    simpa using hm2
  · simpa using h2

/-- A non-empty pushed block appears among the survivors. -/
theorem mem_survivors_of (input : List String) {orig : Nat} {b : CB}
    (h : (allBlocks input)[orig]? = some b) (hne : b.body ≠ []) :
    (orig, b) ∈ survivors input := by
  have h1 : (0 + orig, b) ∈ withIdx 0 (allBlocks input) := withIdx_mem_of_getElem? h 0
  rw [Nat.zero_add] at h1
  exact List.mem_filter_of_mem h1 (by simpa using hne)

/-- A successful label-table lookup yields the facts recorded by the table
invariant. -/
theorem lookup_some_facts (input : List String) {name : String} {orig : Nat}
    (h : lookupLabel (labelTable input) name = some orig) :
    name ≠ "" ∧ ∃ b, (allBlocks input)[orig]? = some b ∧ b.label = some name ∧
      ∃ l, b.body.head? = some l ∧ getLabelMaybe l = some name := by
  unfold lookupLabel at h
  cases hf : (labelTable input).find? (fun e => e.1 = name) with
  | none => rw [hf] at h; cases h
  | some e =>
    rw [hf] at h
    injection h with h
    have hmem : e ∈ labelTable input := List.mem_of_find?_eq_some hf
    have hpred : e.1 = name := by simpa using List.find?_some hf
    obtain ⟨hne, b, hb, hlab, l, hhead, hdecl⟩ := goodIn_buildState input e hmem
    subst h
    rw [hpred] at hne hlab hdecl
    exact ⟨hne, b, hb, hlab, l, hhead, hdecl⟩

/-- A branch resolves (to some filtered position) exactly when its name is
declared by some line of the stream. -/
theorem resolve_isSome_iff_declared (input : List String) (name : String) (hne : name ≠ "") :
    (resolveBranch (labelTable input) (survivors input) name).isSome ↔
      declaredIn input name := by
  constructor
  · intro h
    unfold resolveBranch at h
    cases hl : lookupLabel (labelTable input) name with
    | none => rw [hl] at h; simp at h
    | some orig =>
      unfold lookupLabel at hl
      cases hf : (labelTable input).find? (fun e => e.1 = name) with
      | none => rw [hf] at hl; cases hl
      | some e =>
        have hmem : e ∈ labelTable input := List.mem_of_find?_eq_some hf
        have hpred : e.1 = name := by simpa using List.find?_some hf
        rcases labels_from_lines input initSt e hmem with hinit | ⟨line, hline, hlab, -⟩
        · cases hinit
        · exact ⟨line, hline, by rw [← hpred]; exact ⟨hlab, by rw [hpred]; exact hne⟩⟩
  · rintro ⟨line, hline, hlab, -⟩
    have hsome : (lookupLabel (labelTable input) name).isSome :=
      declared_lookup input initSt line name hline hlab hne
    unfold resolveBranch
    cases hl : lookupLabel (labelTable input) name with
    | none => rw [hl] at hsome; simp at hsome
    | some orig =>
      obtain ⟨-, b, hb, -, l, hhead, -⟩ := lookup_some_facts input hl
      have hbody : b.body ≠ [] := by
        intro h0
        rw [h0] at hhead
        cases hhead
      have hm := mem_survivors_of input hb hbody
      have := findIdxOpt_isSome_of_mem (p := fun p => p.1 = orig) hm (by simp)
      simpa using this

/-- A resolved branch points at a surviving block that opens with a line
declaring exactly the branch-target name. -/
theorem resolve_some_facts (input : List String) {name : String} {j : Nat}
    (h : resolveBranch (labelTable input) (survivors input) name = some j) :
    ∃ q, (survivors input)[j]? = some q ∧ q.2.label = some name ∧
      ∃ l, q.2.body.head? = some l ∧ getLabelMaybe l = some name := by
  unfold resolveBranch at h
  cases hl : lookupLabel (labelTable input) name with
  | none => rw [hl] at h; cases h
  | some orig =>
    rw [hl] at h
    obtain ⟨-, b, hb, hlab, l, hhead, hdecl⟩ := lookup_some_facts input hl
    obtain ⟨q, hq, hqpred⟩ := findIdxOpt_eq_some h
    have hq1 : q.1 = orig := by simpa using hqpred
    obtain ⟨hqall, -⟩ := survivors_entry input hq
    rw [hq1, hb] at hqall
    injection hqall with hqall
    exact ⟨q, hq, by rw [← hqall]; exact hlab, l, by rw [← hqall]; exact hhead, hdecl⟩

/-- Full description of a successful `extractBlocks` run. -/
theorem extract_ok_parts (input : List String) (bs : List Block)
    (hok : extractBlocks input = .ok bs) :
    bs.length = (survivors input).length ∧
    (∀ (i : Nat) (b : Block), bs[i]? = some b → ∃ p, (survivors input)[i]? = some p ∧
      b.contents = p.2.body ∧ b.label = jsOrLabel p.2.label ("b" ++ Nat.repr i) ∧
      b.dead = p.2.dead) ∧
    (∀ (i : Nat) (b : Block), bs[i]? = some b → ∀ j, b.flow = some j →
      j = i + 1 ∧ j < bs.length) ∧
    (∀ (b : Block), bs[bs.length - 1]? = some b → b.flow = none ∧ b.branch = none) ∧
    (∀ (i : Nat) (b : Block), bs[i]? = some b → ∀ j, b.branch = some j →
      ∃ p name, (survivors input)[i]? = some p ∧ p.2.branch = some name ∧ name ≠ "" ∧
        resolveBranch (labelTable input) (survivors input) name = some j) ∧
    (∀ (i : Nat) (p : Nat × CB) (name : String), (survivors input)[i]? = some p →
      i + 1 < (survivors input).length →
      p.2.branch = some name → name ≠ "" →
      ∃ j b, resolveBranch (labelTable input) (survivors input) name = some j ∧
        bs[i]? = some b ∧ b.branch = some j) := by
  rw [extractBlocks_def] at hok
  have hn : ((survivors input).dropLast).length = (survivors input).length - 1 :=
    List.length_dropLast _
  have hlen : 0 + ((survivors input).dropLast).length ≤ (mkBlocks (survivors input)).length := by
    rw [mkBlocks_length, hn]
    omega
  obtain ⟨hL, hunt, hpart⟩ := link_ok_master (labelTable input) (survivors input)
    ((survivors input).dropLast) 0 (mkBlocks (survivors input)) bs hlen hok
  rw [mkBlocks_length] at hL
  have hdrop : ∀ (m : Nat), m + 1 < (survivors input).length →
      ((survivors input).dropLast)[m]? = (survivors input)[m]? :=
    fun m hm => dropLast_getElem? _ m hm
  -- the processed description, repackaged
  have hproc : ∀ (i : Nat), i + 1 < (survivors input).length →
      ∀ (b : Block), bs[i]? = some b → ∃ p, (survivors input)[i]? = some p ∧
        b.contents = p.2.body ∧ b.label = jsOrLabel p.2.label ("b" ++ Nat.repr i) ∧
        b.dead = p.2.dead ∧
        b.flow = (if p.2.flow then some (i + 1) else none) ∧
        ((∃ name j, p.2.branch = some name ∧ name ≠ "" ∧
            resolveBranch (labelTable input) (survivors input) name = some j ∧
            b.branch = some j) ∨
         ((∀ name, p.2.branch = some name → name = "") ∧ b.branch = none)) := by
    intro i hi b hb
    have hm : ((survivors input).dropLast)[i]? ≠ none := by
      rw [hdrop i hi]
      intro h0
      have := List.getElem?_eq_none_iff.mp h0
      omega
    obtain ⟨p, hp⟩ := Option.ne_none_iff_exists'.mp hm
    obtain ⟨b0, b', hb0, hb', hcont, hlab, hdead, hflow, hbranch⟩ := hpart i p hp
    rw [Nat.zero_add] at hb0 hb'
    rw [hb] at hb'
    injection hb' with hb'
    subst hb'
    rw [mkBlocks_getElem?] at hb0
    rw [hdrop i hi] at hp
    rw [hp] at hb0
    simp only [Option.map_some'] at hb0
    injection hb0 with hb0
    subst hb0
    refine ⟨p, hp, hcont, hlab, hdead, by simpa using hflow, ?_⟩
    rcases hbranch with ⟨name, j, h1, h2, h3, h4⟩ | ⟨h1, h2⟩
    · exact .inl ⟨name, j, h1, h2, h3, h4⟩
    · exact .inr ⟨h1, by simpa using h2⟩
  -- the untouched (last position) description
  have hlast : ∀ (i : Nat), i + 1 ≥ (survivors input).length →
      ∀ (b : Block), bs[i]? = some b → ∃ p, (survivors input)[i]? = some p ∧
        b.contents = p.2.body ∧ b.label = jsOrLabel p.2.label ("b" ++ Nat.repr i) ∧
        b.dead = p.2.dead ∧ b.flow = none ∧ b.branch = none := by
    intro i hi b hb
    have hib : i < (survivors input).length := by
      obtain ⟨hlt, -⟩ := List.getElem?_eq_some.mp hb
      omega
    have hu : bs[i]? = (mkBlocks (survivors input))[i]? := by
      apply hunt
      right
      rw [Nat.zero_add, hn]
      omega
    rw [hb, mkBlocks_getElem?] at hu
    obtain ⟨p, hp⟩ : ∃ p, (survivors input)[i]? = some p :=
      ⟨(survivors input)[i], List.getElem?_eq_getElem hib⟩
    rw [hp] at hu
    simp only [Option.map_some'] at hu
    injection hu with hu
    subst hu
    exact ⟨p, hp, rfl, rfl, rfl, rfl, rfl⟩
  refine ⟨hL, ?_, ?_, ?_, ?_, ?_⟩
  · intro i b hb
    by_cases hi : i + 1 < (survivors input).length
    · obtain ⟨p, hp, hc, hl2, hd, -, -⟩ := hproc i hi b hb
      exact ⟨p, hp, hc, hl2, hd⟩
    · obtain ⟨p, hp, hc, hl2, hd, -, -⟩ := hlast i (by omega) b hb
      exact ⟨p, hp, hc, hl2, hd⟩
  · intro i b hb j hflow
    by_cases hi : i + 1 < (survivors input).length
    · obtain ⟨p, hp, -, -, -, hf, -⟩ := hproc i hi b hb
      rw [hf] at hflow
      by_cases hpf : p.2.flow
      · rw [if_pos hpf] at hflow
        injection hflow with hflow
        omega
      · rw [if_neg hpf] at hflow
        cases hflow
    · obtain ⟨-, -, -, -, -, hf, -⟩ := hlast i (by omega) b hb
      rw [hf] at hflow
      cases hflow
  · intro b hb
    have hbl : bs.length - 1 + 1 ≥ (survivors input).length := by
      obtain ⟨hlt, -⟩ := List.getElem?_eq_some.mp hb
      omega
    obtain ⟨-, -, -, -, -, hf, hbr⟩ := hlast (bs.length - 1) hbl b hb
    exact ⟨hf, hbr⟩
  · intro i b hb j hbr
    by_cases hi : i + 1 < (survivors input).length
    · obtain ⟨p, hp, -, -, -, -, hbranch⟩ := hproc i hi b hb
      rcases hbranch with ⟨name, j', h1, h2, h3, h4⟩ | ⟨-, h2⟩
      · rw [hbr] at h4
        injection h4 with h4
        subst h4
        exact ⟨p, name, hp, h1, h2, h3⟩
      · rw [h2] at hbr
        cases hbr
    · obtain ⟨-, -, -, -, -, -, hbr0⟩ := hlast i (by omega) b hb
      rw [hbr0] at hbr
      cases hbr
  · intro i p name hp hi hpbr hne
    have hib : i < bs.length := by rw [hL]; omega
    obtain ⟨b, hb⟩ : ∃ b, bs[i]? = some b := ⟨bs[i], List.getElem?_eq_getElem hib⟩
    obtain ⟨p', hp', -, -, -, -, hbranch⟩ := hproc i hi b hb
    rw [hp] at hp'
    injection hp' with hp'
    subst hp'
    rcases hbranch with ⟨name', j, h1, h2, h3, h4⟩ | ⟨h1, -⟩
    · rw [hpbr] at h1
      injection h1 with h1
      subst h1
      exact ⟨j, b, h3, hb, h4⟩
    · exact absurd (h1 name hpbr) hne

/-! ### Claims -/

/-- C1 (the code contradicts this claim): evaluation of `extractBlocks` at
the claim's own scenario.  The source sets the new block's dead flag to
`!!flow`, i.e. dead after a *conditional* branch and live after an
*unconditional* one — the reverse of the claimed (and intended) marking:
on `["b l0", "int 9", "l0:", "err"]` the `["int 9"]` block comes out with
`dead = false` (the claim requires `true`), though it does keep the
positional fallthrough edge to block `"l0"` (index 2); on the conditional
variant the same block comes out `dead = true` (the claim requires
`false`). -/
theorem c1_dead_flag_evaluation :
    extractBlocks ["b l0", "int 9", "l0:", "err"] =
      .ok [⟨["b l0"], "b0", false, none, some 2⟩,
           ⟨["int 9"], "b1", false, some 2, none⟩,
           ⟨["l0:", "err"], "l0", false, none, none⟩] ∧
    extractBlocks ["bnz l0", "int 9", "l0:", "err"] =
      .ok [⟨["bnz l0"], "b0", false, some 1, some 2⟩,
           ⟨["int 9"], "b1", true, some 2, none⟩,
           ⟨["l0:", "err"], "l0", false, none, none⟩] :=
  ⟨by decide, by decide⟩

/-- C3: on every successful run, a finished block's fallthrough successor,
when present, is exactly the next position in the finished ordered list,
and the last block never has one. -/
theorem c3_fallthrough_positional (input : List String) (bs : List Block)
    (hok : extractBlocks input = .ok bs) :
    (∀ (i : Nat) (b : Block), bs[i]? = some b → ∀ j, b.flow = some j →
      j = i + 1 ∧ j < bs.length) ∧
    (∀ (b : Block), bs[bs.length - 1]? = some b → b.flow = none) := by
  obtain ⟨-, -, hflow, hlastf, -, -⟩ := extract_ok_parts input bs hok
  exact ⟨hflow, fun b hb => (hlastf b hb).1⟩

/-- Witness for C3 at the conditional-branch scenario: the middle block's
fallthrough successor is position 2 = 1 + 1, and the last block has none. -/
theorem c3_fallthrough_positional_witness :
    ((2 : Nat) = 1 + 1 ∧ 2 < ([⟨["bnz l1"], "b0", false, some 1, some 2⟩,
      ⟨["int 1"], "b1", true, some 2, none⟩,
      ⟨["l1:", "err"], "l1", false, none, none⟩] : List Block).length) ∧
    (⟨["l1:", "err"], "l1", false, none, none⟩ : Block).flow = none := by
  have h := c3_fallthrough_positional ["bnz l1", "int 1", "l1:", "err"]
    [⟨["bnz l1"], "b0", false, some 1, some 2⟩, ⟨["int 1"], "b1", true, some 2, none⟩,
     ⟨["l1:", "err"], "l1", false, none, none⟩] (by decide)
  exact ⟨h.1 1 ⟨["int 1"], "b1", true, some 2, none⟩ (by decide) 2 (by decide),
         h.2 ⟨["l1:", "err"], "l1", false, none, none⟩ (by decide)⟩

/-- C5: on every successful run, every finished block has a non-empty body. -/
theorem c5_bodies_nonempty (input : List String) (bs : List Block)
    (hok : extractBlocks input = .ok bs) : ∀ b ∈ bs, b.contents ≠ [] := by
  intro b hb
  obtain ⟨i, hi⟩ := List.getElem?_of_mem hb
  obtain ⟨-, hfields, -, -, -, -⟩ := extract_ok_parts input bs hok
  obtain ⟨p, hp, hc, -, -⟩ := hfields i b hi
  obtain ⟨-, hne⟩ := survivors_entry input hp
  rw [hc]
  exact hne

/-- Witness for C5 on a stream ending in a terminator (the synthetic
trailing empty block is filtered out). -/
theorem c5_bodies_nonempty_witness :
    (⟨["return"], "b0", false, none, none⟩ : Block).contents ≠ [] :=
  c5_bodies_nonempty ["return"] [⟨["return"], "b0", false, none, none⟩] (by decide)
    ⟨["return"], "b0", false, none, none⟩ (by decide)

/-- C7 counterexample: the line `"err:"` is classified both as a usable
label declaration (name `"err"`) and as a terminator, so the three
classifier predicates are not mutually exclusive as claimed. -/
theorem c7_counterexample :
    getLabelMaybe "err:" = some "err" ∧ ("err" : String) ≠ "" ∧
      isTerminator "err:" = true := by
  refine ⟨by decide, by decide, by decide⟩

/-- C7 amended: a branch line is never a label declaration and never a
terminator; only the label/terminator pair can overlap (label-first
classification order resolves it). -/
theorem c7_amended (line : String) :
    (∀ r, getBranchMaybe line = some r → getLabelMaybe line = none) ∧
    (∀ r, getBranchMaybe line = some r → isTerminator line = false) := by
  have hcases : ∀ r, getBranchMaybe line = some r →
      (∃ t, line.toList = "bnz ".toList ++ t) ∨ (∃ t, line.toList = "bz ".toList ++ t) ∨
      (∃ t, line.toList = "b ".toList ++ t) := by
    intro r hr
    unfold getBranchMaybe at hr
    by_cases h1 : leadsWith "bnz ".toList line.toList = true
    · exact .inl ((leadsWith_iff _ _).mp h1)
    · rw [if_neg h1] at hr
      by_cases h2 : leadsWith "bz ".toList line.toList = true
      · exact .inr (.inl ((leadsWith_iff _ _).mp h2))
      · rw [if_neg h2] at hr
        by_cases h3 : leadsWith "b ".toList line.toList = true
        · exact .inr (.inr ((leadsWith_iff _ _).mp h3))
        · rw [if_neg h3] at hr
          cases hr
  constructor
  · intro r hr
    unfold getLabelMaybe
    rcases hcases r hr with ⟨t, ht⟩ | ⟨t, ht⟩ | ⟨t, ht⟩ <;> rw [ht] <;> rfl
  · intro r hr
    unfold isTerminator
    rcases hcases r hr with ⟨t, ht⟩ | ⟨t, ht⟩ | ⟨t, ht⟩ <;> rw [ht] <;> rfl

/-- Witness for C7 on a concrete branch line. -/
theorem c7_amended_witness :
    getLabelMaybe "b l0" = none ∧ isTerminator "b l0" = false :=
  ⟨(c7_amended "b l0").1 ("b", "l0") (by decide),
   (c7_amended "b l0").2 ("b", "l0") (by decide)⟩

/-- The open current block of any reachable builder state has neither its
flow flag nor a branch target set. -/
theorem buildState_cur_clean (ls : List String) :
    (List.foldl step initSt ls).cur.flow = false ∧
    (List.foldl step initSt ls).cur.branch = none :=
  foldl_cur_clean ls initSt rfl rfl

/-- C10: any line that begins with `err` or `return` (including lines that
merely share the prefix) and is neither a usable label nor a branch closes
the current block — the line is appended to the body, the closed block has
no fallthrough flag and no branch target, and the next block is opened
dead. -/
theorem c10_terminator_classification (ls : List String) (line : String) (rest : List Char)
    (hpre : line.toList = "err".toList ++ rest ∨ line.toList = "return".toList ++ rest)
    (hnl : ∀ nm, getLabelMaybe line = some nm → nm = "")
    (hnb : getBranchMaybe line = none) :
    step (List.foldl step initSt ls) line =
      ⟨(List.foldl step initSt ls).blocks ++
        [⟨(List.foldl step initSt ls).cur.body ++ [line],
          (List.foldl step initSt ls).cur.label, false, none,
          (List.foldl step initSt ls).cur.dead⟩],
        (List.foldl step initSt ls).labels, ⟨[], none, false, none, true⟩⟩ := by
  have hterm : isTerminator line = true := by
    unfold isTerminator
    rcases hpre with h | h
    · rw [h]; rfl
    · rw [h]; rfl
  have hclean := buildState_cur_clean ls
  rcases step_cases (List.foldl step initSt ls) line with
    ⟨nm, hl, hε, -⟩ | ⟨mn, tg, hbv, -⟩ | ⟨-, -, hs⟩ | ⟨-, ht, -⟩
  · exact absurd (hnl nm hl) hε
  · rw [hnb] at hbv
    cases hbv
  · rw [hs, hclean.1, hclean.2]
  · rw [hterm] at ht
    cases ht

/-- Witness for C10: the ordinary-looking line `"errata"` is treated as a
terminator after the prefix `["int 1"]`. -/
theorem c10_terminator_classification_witness :
    step (List.foldl step initSt ["int 1"]) "errata" =
      ⟨[⟨["int 1", "errata"], none, false, none, false⟩], [],
        ⟨[], none, false, none, true⟩⟩ :=
  (c10_terminator_classification ["int 1"] "errata" ['a', 't', 'a']
    (Or.inl (by decide))
    (fun nm h => by
      have h0 : getLabelMaybe "errata" = none := by decide
      rw [h0] at h
      cases h)
    (by decide)).trans (by decide)

/-- C9: a line that is a branch mnemonic followed by one space is
classified as a branch with the empty-string target; such a block never
receives a branch successor, the empty name is never in the label table,
and yet extraction can succeed (the link step silently skips falsy
targets). -/
theorem c9_empty_branch_target :
    (∀ mn : String, (mn = "b" ∨ mn = "bz" ∨ mn = "bnz") →
      getBranchMaybe (mn ++ " ") = some (mn, "")) ∧
    (∀ (input : List String) (bs : List Block) (i : Nat) (p : Nat × CB) (b : Block),
      extractBlocks input = .ok bs → (survivors input)[i]? = some p →
      p.2.branch = some "" → bs[i]? = some b → b.branch = none) ∧
    (∀ input : List String, lookupLabel (labelTable input) "" = none) ∧
    extractBlocks ["b ", "return"] =
      .ok [⟨["b "], "b0", false, none, none⟩, ⟨["return"], "b1", false, none, none⟩] := by
  refine ⟨?_, ?_, lookup_empty_none, by decide⟩
  · rintro mn (rfl | rfl | rfl) <;> decide
  · intro input bs i p b hok hp hbr hb
    obtain ⟨-, -, -, -, hbrorigin, -⟩ := extract_ok_parts input bs hok
    cases hbv : b.branch with
    | none => rfl
    | some j =>
      obtain ⟨p2, name, hp2, hpbr2, hne2, -⟩ := hbrorigin i b hb j hbv
      rw [hp] at hp2
      injection hp2 with hp2
      subst hp2
      rw [hbr] at hpbr2
      injection hpbr2 with e
      exact absurd e.symm hne2

/-- Witness for C9: the finished block for `["b ", "return"]`'s first
block has no branch successor. -/
theorem c9_empty_branch_target_witness :
    (⟨["b "], "b0", false, none, none⟩ : Block).branch = none :=
  c9_empty_branch_target.2.1 ["b ", "return"]
    [⟨["b "], "b0", false, none, none⟩, ⟨["return"], "b1", false, none, none⟩]
    0 (0, ⟨["b "], none, false, some "", false⟩) ⟨["b "], "b0", false, none, none⟩
    (by decide) (by decide) (by decide) (by decide)

/-- C2 counterexample: on `["b missing"]` the only closed block carries the
undeclared branch-target name `"missing"`, yet `extractBlocks` succeeds
and returns a graph — the linking loop `for (i = 1; i < blocks.length;
i++)` never examines the last finished block. -/
theorem c2_counterexample :
    (survivors ["b missing"])[0]? =
      some (0, ⟨["b missing"], none, false, some "missing", false⟩) ∧
    ¬ declaredIn ["b missing"] "missing" ∧
    extractBlocks ["b missing"] = .ok [⟨["b missing"], "b0", false, none, none⟩] :=
  ⟨by decide, by decide, by decide⟩

/-- C2 amended: restricted to finished blocks other than the last and to
non-empty target names, the claim holds — an undeclared such target makes
`extractBlocks` fail with the unresolved-branch-target error naming a
missing label (and no graph is returned); when all such targets are
declared, extraction succeeds. -/
theorem c2_amended (input : List String) :
    (∀ (p : Nat × CB) (name : String), p ∈ (survivors input).dropLast →
        p.2.branch = some name → name ≠ "" → ¬ declaredIn input name →
      ∃ nm, nm ≠ "" ∧ ¬ declaredIn input nm ∧
        (∃ q ∈ (survivors input).dropLast, q.2.branch = some nm) ∧
        extractBlocks input = .error (targetErr nm)) ∧
    ((∀ (p : Nat × CB) (name : String), p ∈ (survivors input).dropLast →
        p.2.branch = some name → name ≠ "" → declaredIn input name) →
      ∃ bs, extractBlocks input = .ok bs) := by
  constructor
  · intro p name hp hbr hne hundecl
    have hfail : linkFails (labelTable input) (survivors input) p := by
      refine ⟨name, hbr, hne, ?_⟩
      cases hres : resolveBranch (labelTable input) (survivors input) name with
      | none => rfl
      | some j =>
        exact absurd ((resolve_isSome_iff_declared input name hne).mp
          (by rw [hres]; rfl)) hundecl
    obtain ⟨nm, hnm, ⟨q, hq, hqbr, hqres⟩, herr⟩ := link_error_of_fail (labelTable input)
      (survivors input) ((survivors input).dropLast) 0 (mkBlocks (survivors input))
      ⟨p, hp, hfail⟩
    refine ⟨nm, hnm, ?_, ⟨q, hq, hqbr⟩, ?_⟩
    · intro hdecl
      have := (resolve_isSome_iff_declared input nm hnm).mpr hdecl
      rw [hqres] at this
      simp at this
    · rw [extractBlocks_def]
      exact herr
  · intro hall
    have hnofail : ∀ p ∈ (survivors input).dropLast,
        ¬ linkFails (labelTable input) (survivors input) p := by
      rintro p hp ⟨name, hbr, hne, hres⟩
      have hdecl := hall p name hp hbr hne
      have := (resolve_isSome_iff_declared input name hne).mpr hdecl
      rw [hres] at this
      simp at this
    obtain ⟨out, hout⟩ := link_ok_of_no_fail (labelTable input) (survivors input)
      ((survivors input).dropLast) 0 (mkBlocks (survivors input)) hnofail
    exact ⟨out, by rw [extractBlocks_def]; exact hout⟩

/-- Witness for C2: the error direction at `["b missing", "return"]` and
the success direction at `["b l0", "l0:"]`. -/
theorem c2_amended_witness :
    (∃ nm, nm ≠ "" ∧ ¬ declaredIn ["b missing", "return"] nm ∧
      (∃ q ∈ (survivors ["b missing", "return"]).dropLast, q.2.branch = some nm) ∧
      extractBlocks ["b missing", "return"] = .error (targetErr nm)) ∧
    (∃ bs, extractBlocks ["b l0", "l0:"] = .ok bs) :=
  ⟨(c2_amended ["b missing", "return"]).1
      (0, ⟨["b missing"], none, false, some "missing", false⟩) "missing"
      (by decide) (by decide) (by decide) (by decide),
   (c2_amended ["b l0", "l0:"]).2 (by
      intro p name hp hbr hne
      have hd : (survivors ["b l0", "l0:"]).dropLast =
          [(0, ⟨["b l0"], none, false, some "l0", false⟩)] := by decide
      rw [hd] at hp
      have hp' : p = (0, ⟨["b l0"], none, false, some "l0", false⟩) := by simpa using hp
      subst hp'
      injection hbr with e
      rw [← e]
      decide)⟩

/-- C4: on every successful run, a finished block's branch successor is
the finished block derived from the registered constructing block that
opens with the matching label declaration (its first body line declares
the target name), and the successor's label string equals the branching
block's recorded branch-target name. -/
theorem c4_branch_successor (input : List String) (bs : List Block)
    (hok : extractBlocks input = .ok bs) :
    ∀ (i : Nat) (b : Block), bs[i]? = some b → ∀ j, b.branch = some j →
      ∃ (p q : Nat × CB) (b2 : Block) (name : String),
        (survivors input)[i]? = some p ∧ p.2.branch = some name ∧ name ≠ "" ∧
        (survivors input)[j]? = some q ∧ q.2.label = some name ∧
        (∃ l, q.2.body.head? = some l ∧ getLabelMaybe l = some name) ∧
        bs[j]? = some b2 ∧ b2.label = name := by
  intro i b hb j hbr
  obtain ⟨hL, hfields, -, -, horigin, -⟩ := extract_ok_parts input bs hok
  obtain ⟨p, name, hp, hpbr, hne, hres⟩ := horigin i b hb j hbr
  obtain ⟨q, hq, hqlab, l, hqhead, hqdecl⟩ := resolve_some_facts input hres
  have hjlen : j < bs.length := by
    rw [hL]
    obtain ⟨hlt, -⟩ := List.getElem?_eq_some.mp hq
    omega
  obtain ⟨b2, hb2⟩ : ∃ b2, bs[j]? = some b2 := ⟨bs[j], List.getElem?_eq_getElem hjlen⟩
  obtain ⟨q2, hq2, -, hb2lab, -⟩ := hfields j b2 hb2
  rw [hq] at hq2
  injection hq2 with hq2
  subst hq2
  refine ⟨p, q, b2, name, hp, hpbr, hne, hq, hqlab, ⟨l, hqhead, hqdecl⟩, hb2, ?_⟩
  rw [hb2lab, hqlab]
  simp [jsOrLabel, hne]

/-- Witness for C4 at the straight-line branch scenario. -/
theorem c4_branch_successor_witness :
    ∃ (p q : Nat × CB) (b2 : Block) (name : String),
      (survivors ["b l0", "l0:", "return"])[0]? = some p ∧ p.2.branch = some name ∧
      name ≠ "" ∧
      (survivors ["b l0", "l0:", "return"])[1]? = some q ∧ q.2.label = some name ∧
      (∃ l, q.2.body.head? = some l ∧ getLabelMaybe l = some name) ∧
      ([⟨["b l0"], "b0", false, none, some 1⟩,
        ⟨["l0:", "return"], "l0", false, none, none⟩] : List Block)[1]? = some b2 ∧
      b2.label = name :=
  c4_branch_successor ["b l0", "l0:", "return"]
    [⟨["b l0"], "b0", false, none, some 1⟩, ⟨["l0:", "return"], "l0", false, none, none⟩]
    (by decide) 0 ⟨["b l0"], "b0", false, none, some 1⟩ (by decide) 1 (by decide)

/-- C6 counterexample: the user-declared label `"b1"` collides with the
synthesized name of the unlabeled block at finished position 1, so on
`["return", "int 1", "b1: x"]` two finished blocks carry the same label
`"b1"` — the finished labels are not pairwise distinct. -/
theorem c6_counterexample :
    getLabelMaybe "b1: x" = some "b1" ∧
    extractBlocks ["return", "int 1", "b1: x"] =
      .ok [⟨["return"], "b0", false, none, none⟩,
           ⟨["int 1"], "b1", true, some 2, none⟩,
           ⟨["b1: x"], "b1", false, none, none⟩] ∧
    (⟨["int 1"], "b1", true, some 2, none⟩ : Block).label =
      (⟨["b1: x"], "b1", false, none, none⟩ : Block).label :=
  ⟨by decide, by decide, by decide⟩

/-- C6 amended: each finished label is the block's declared name (which
some input line declares) when present, otherwise the synthesized
positional name; every declared name appears as some finished label; and
the labels are pairwise distinct *provided* distinct surviving blocks
never declare the same name and no declared name has the shape of an
unlabeled block's synthesized name (both provisos can fail, see the
counterexample). -/
theorem c6_amended (input : List String) (bs : List Block)
    (hok : extractBlocks input = .ok bs) :
    (∀ (i : Nat) (b : Block), bs[i]? = some b → ∃ p, (survivors input)[i]? = some p ∧
      ((∃ nm, p.2.label = some nm ∧ nm ≠ "" ∧ b.label = nm ∧ declaredIn input nm) ∨
       (p.2.label = none ∧ b.label = "b" ++ Nat.repr i))) ∧
    (∀ nm : String, declaredIn input nm →
      ∃ (j : Nat) (b : Block), bs[j]? = some b ∧ b.label = nm) ∧
    ((∀ (i j : Nat) (p q : Nat × CB) (nm : String), (survivors input)[i]? = some p →
        (survivors input)[j]? = some q → p.2.label = some nm → q.2.label = some nm → i = j) →
     (∀ (i j : Nat) (p q : Nat × CB) (nm : String), (survivors input)[i]? = some p →
        (survivors input)[j]? = some q → p.2.label = some nm → q.2.label = none →
        nm ≠ "b" ++ Nat.repr j) →
     ∀ (i j : Nat) (bi bj : Block), bs[i]? = some bi → bs[j]? = some bj → i ≠ j →
       bi.label ≠ bj.label) := by
  obtain ⟨hL, hfields, -, -, -, -⟩ := extract_ok_parts input bs hok
  have hchar : ∀ (i : Nat) (b : Block), bs[i]? = some b →
      ∃ p, (survivors input)[i]? = some p ∧
      ((∃ nm, p.2.label = some nm ∧ nm ≠ "" ∧ b.label = nm ∧ declaredIn input nm) ∨
       (p.2.label = none ∧ b.label = "b" ++ Nat.repr i)) := by
    intro i b hb
    obtain ⟨p, hp, -, hlab, -⟩ := hfields i b hb
    refine ⟨p, hp, ?_⟩
    cases hpl : p.2.label with
    | none =>
      right
      refine ⟨rfl, ?_⟩
      rw [hlab, hpl]
      rfl
    | some nm =>
      left
      obtain ⟨hall, -⟩ := survivors_entry input hp
      have hmem : p.2 ∈ (List.foldl step initSt input).blocks ++
          [(List.foldl step initSt input).cur] :=
        List.mem_iff_getElem?.mpr ⟨p.1, hall⟩
      rcases block_label_from input initSt p.2 hmem nm hpl with
        ⟨b0, hb0, hb0l⟩ | ⟨line, hline, hld, hne⟩
      · exfalso
        have hb0' : b0 = initCur := by simpa [initSt] using hb0
        rw [hb0'] at hb0l
        cases hb0l
      · refine ⟨nm, rfl, hne, ?_, ⟨line, hline, hld, hne⟩⟩
        rw [hlab, hpl]
        simp [jsOrLabel, hne]
  refine ⟨hchar, ?_, ?_⟩
  · rintro nm ⟨line, hline, hld, hne⟩
    have hsome : (lookupLabel (labelTable input) nm).isSome :=
      declared_lookup input initSt line nm hline hld hne
    cases hl : lookupLabel (labelTable input) nm with
    | none => rw [hl] at hsome; simp at hsome
    | some orig =>
      obtain ⟨-, b0, hb0, hb0lab, l, hhead, -⟩ := lookup_some_facts input hl
      have hbody : b0.body ≠ [] := by
        intro h0
        rw [h0] at hhead
        cases hhead
      have hmem := mem_survivors_of input hb0 hbody
      obtain ⟨j, hj⟩ := List.getElem?_of_mem hmem
      have hjlen : j < bs.length := by
        rw [hL]
        obtain ⟨hlt, -⟩ := List.getElem?_eq_some.mp hj
        omega
      obtain ⟨b2, hb2⟩ : ∃ b2, bs[j]? = some b2 := ⟨bs[j], List.getElem?_eq_getElem hjlen⟩
      obtain ⟨p2, hp2, -, hlab2, -⟩ := hfields j b2 hb2
      rw [hj] at hp2
      injection hp2 with hp2
      refine ⟨j, b2, hb2, ?_⟩
      rw [hlab2, ← hp2]
      simp [jsOrLabel, hb0lab, hne]
  · intro H1 H2 i j bi bj hbi hbj hij heq
    obtain ⟨p, hp, hci⟩ := hchar i bi hbi
    obtain ⟨q, hq, hcj⟩ := hchar j bj hbj
    rcases hci with ⟨nmi, hpi, hnei, hbli, -⟩ | ⟨hpi, hbli⟩
    · rcases hcj with ⟨nmj, hqj, hnej, hblj, -⟩ | ⟨hqj, hblj⟩
      · apply hij
        refine H1 i j p q nmi hp hq hpi ?_
        have hnm : nmi = nmj := by rw [← hbli, ← hblj, heq]
        rw [hqj, hnm]
      · exact absurd (show nmi = "b" ++ Nat.repr j by rw [← hbli, heq, hblj])
          (H2 i j p q nmi hp hq hpi hqj)
    · rcases hcj with ⟨nmj, hqj, hnej, hblj, -⟩ | ⟨hqj, hblj⟩
      · exact absurd (show nmj = "b" ++ Nat.repr i by rw [← hblj, ← heq, hbli])
          (H2 j i q p nmj hq hp hqj hpi)
      · exact hij (synth_name_injective
          (show ("b" ++ Nat.repr i : String) = "b" ++ Nat.repr j by
            rw [← hbli, ← hblj, heq]))

/-- Witness for C6: the declared-name coverage direction at
`["l0: x", "b l0"]` and the distinctness direction at
`["return", "int 1"]` (whose two finished blocks are both unlabeled, so
both provisos hold). -/
theorem c6_amended_witness :
    (∃ (j : Nat) (b : Block),
      ([⟨["l0: x", "b l0"], "l0", false, none, none⟩] : List Block)[j]? = some b ∧
      b.label = "l0") ∧
    (⟨["return"], "b0", false, none, none⟩ : Block).label ≠
      (⟨["int 1"], "b1", true, none, none⟩ : Block).label := by
  have hnolab : ∀ (m : Nat) (r : Nat × CB), (survivors ["return", "int 1"])[m]? = some r →
      r.2.label = none := by
    intro m r hr
    have hs : survivors ["return", "int 1"] =
        [(0, ⟨["return"], none, false, none, false⟩),
         (1, ⟨["int 1"], none, false, none, true⟩)] := by decide
    rw [hs] at hr
    rcases m with - | - | m
    · injection hr with hr
      rw [← hr]
      decide
    · injection hr with hr
      rw [← hr]
      decide
    · simp at hr
  refine ⟨(c6_amended ["l0: x", "b l0"] [⟨["l0: x", "b l0"], "l0", false, none, none⟩]
      (by decide)).2.1 "l0" (by decide), ?_⟩
  refine (c6_amended ["return", "int 1"]
      [⟨["return"], "b0", false, none, none⟩, ⟨["int 1"], "b1", true, none, none⟩]
      (by decide)).2.2 ?_ ?_ 0 1 _ _ (by decide) (by decide) (by decide)
  · intro i j p q nm hp hq hpl hql
    rw [hnolab i p hp] at hpl
    cases hpl
  · intro i j p q nm hp hq hpl hql
    rw [hnolab i p hp] at hpl
    cases hpl

/-- C8 counterexample: on `["l: one", "l: two", "b l"]` the name `"l"` is
declared on two lines and the table does record the later declaration's
block (pushed index 2), but the branch whose target is `"l"` sits in the
last finished block, which the linking loop never processes: its finished
branch successor remains `none`, so not *every* branch with that target
resolves to the last declaration's block as claimed. -/
theorem c8_counterexample :
    getLabelMaybe "l: one" = some "l" ∧ getLabelMaybe "l: two" = some "l" ∧
    lookupLabel (labelTable ["l: one", "l: two", "b l"]) "l" = some 2 ∧
    (survivors ["l: one", "l: two", "b l"])[1]? =
      some (2, ⟨["l: two", "b l"], some "l", false, some "l", false⟩) ∧
    extractBlocks ["l: one", "l: two", "b l"] =
      .ok [⟨["l: one"], "l", false, some 1, none⟩,
           ⟨["l: two", "b l"], "l", false, none, none⟩] :=
  ⟨by decide, by decide, by decide, by decide, by decide⟩

/-- C8 amended: when line `j` is the last line declaring `name`, the label
table maps `name` to the pushed-block index reached right after line `j`
(the block the later declaration opened, overwriting earlier
registrations), that block carries the label and opens with line `j`'s
text, and every branch with that target sitting in a finished block other
than the last resolves to that block; no error arises from the duplicate
declarations themselves. -/
theorem c8_amended (input : List String) (j : Nat) (line name : String)
    (hline : input[j]? = some line)
    (hdecl : getLabelMaybe line = some name) (hne : name ≠ "")
    (hlast : ∀ (k : Nat) (lk : String), j < k → input[k]? = some lk →
      getLabelMaybe lk ≠ some name) :
    lookupLabel (labelTable input) name =
      some ((List.foldl step initSt (List.take (j + 1) input)).blocks.length) ∧
    (∃ b, (allBlocks input)[(List.foldl step initSt
        (List.take (j + 1) input)).blocks.length]? = some b ∧
      b.label = some name ∧ b.body.head? = some line) ∧
    (∀ (bs : List Block) (i : Nat) (p : Nat × CB) (b : Block),
      extractBlocks input = .ok bs → (survivors input)[i]? = some p →
      p.2.branch = some name → bs[i]? = some b → i + 1 < bs.length →
      ∃ (jf : Nat) (q : Nat × CB), b.branch = some jf ∧ (survivors input)[jf]? = some q ∧
        q.1 = (List.foldl step initSt (List.take (j + 1) input)).blocks.length ∧
        q.2.label = some name) := by
  have htake : List.take (j + 1) input = List.take j input ++ [line] := by
    rw [List.take_succ, hline]
    rfl
  have hdropdecl : ∀ l ∈ List.drop (j + 1) input, getLabelMaybe l ≠ some name := by
    intro l hl
    obtain ⟨m, hm⟩ := List.getElem?_of_mem hl
    rw [List.getElem?_drop] at hm
    exact hlast (j + 1 + m) l (by omega) hm
  -- the state right after processing line j
  have hstep : List.foldl step initSt (List.take (j + 1) input) =
      step (List.foldl step initSt (List.take j input)) line := by
    rw [htake, List.foldl_append]
    rfl
  set stj := List.foldl step initSt (List.take j input) with hstj
  have hlabelstep := step_label stj line name hdecl hne
  have hJ : (List.foldl step initSt (List.take (j + 1) input)).blocks.length =
      stj.blocks.length + 1 := by
    rw [hstep, hlabelstep]
    simp
  -- the final state continues from the post-line-j state
  have hfinal : buildState input =
      List.foldl step (List.foldl step initSt (List.take (j + 1) input))
        (List.drop (j + 1) input) := by
    show List.foldl step initSt input = _
    rw [← List.foldl_append, List.take_append_drop]
  have hlookupJ : lookupLabel (List.foldl step initSt (List.take (j + 1) input)).labels name =
      some (stj.blocks.length + 1) := by
    rw [hstep, hlabelstep]
    rw [show (⟨stj.blocks ++ [{ stj.cur with flow := true }],
      (name, stj.blocks.length + 1) :: stj.labels,
      ⟨[line], some name, false, none, false⟩⟩ : BuildSt).labels =
        (name, stj.blocks.length + 1) :: stj.labels from rfl, lookup_cons]
    simp
  have hlookup : lookupLabel (labelTable input) name = some (stj.blocks.length + 1) := by
    show lookupLabel (buildState input).labels name = _
    rw [hfinal, lookup_stable (List.drop (j + 1) input) _ name hdropdecl, hlookupJ]
  have hblock : ∃ b, (allBlocks input)[stj.blocks.length + 1]? = some b ∧
      b.label = some name ∧ b.body.head? = some line := by
    have hcur : (List.foldl step initSt (List.take (j + 1) input)).cur =
        ⟨[line], some name, false, none, false⟩ := by
      rw [hstep, hlabelstep]
    have hblen : (List.foldl step initSt (List.take (j + 1) input)).blocks.length =
        stj.blocks.length + 1 := hJ
    obtain ⟨b, hb, hlab, hhead, -⟩ :=
      cur_persist (List.drop (j + 1) input) (List.foldl step initSt (List.take (j + 1) input))
        (by rw [hcur]; simp)
    rw [hblen] at hb
    refine ⟨b, ?_, by rw [hlab, hcur], by rw [hhead, hcur]; rfl⟩
    show ((buildState input).blocks ++ [(buildState input).cur])[stj.blocks.length + 1]? = some b
    rw [hfinal]
    exact hb
  refine ⟨by rw [hJ]; exact hlookup, by rw [hJ]; exact hblock, ?_⟩
  intro bs i p b hok hp hpbr hb hilen
  obtain ⟨hL, -, -, -, -, hset⟩ := extract_ok_parts input bs hok
  obtain ⟨jf, b2, hres, hb2, hb2br⟩ := hset i p name hp (by rw [← hL]; exact hilen) hpbr hne
  rw [hb] at hb2
  injection hb2 with hb2
  subst hb2
  have hres' : findIdxOpt (fun q => q.1 = stj.blocks.length + 1) (survivors input) =
      some jf := by
    have : resolveBranch (labelTable input) (survivors input) name =
        findIdxOpt (fun q => q.1 = stj.blocks.length + 1) (survivors input) := by
      unfold resolveBranch
      rw [hlookup]
    rw [← this, hres]
  obtain ⟨q, hq, hqpred⟩ := findIdxOpt_eq_some hres'
  have hq1 : q.1 = stj.blocks.length + 1 := by simpa using hqpred
  obtain ⟨b3, hb3, hb3lab, -⟩ := hblock
  obtain ⟨hqall, -⟩ := survivors_entry input hq
  rw [hq1, hb3] at hqall
  injection hqall with hqall
  exact ⟨jf, q, hb2br, hq, by rw [hq1, hJ], by rw [← hqall]; exact hb3lab⟩

/-- Witness for C8 at `["l: one", "b l", "l: two"]`: the later declaration
(line 2) wins, and the non-last branch at finished position 0 resolves to
its block. -/
theorem c8_amended_witness :
    lookupLabel (labelTable ["l: one", "b l", "l: two"]) "l" =
      some ((List.foldl step initSt
        (List.take 3 ["l: one", "b l", "l: two"])).blocks.length) ∧
    (∃ b, (allBlocks ["l: one", "b l", "l: two"])[(List.foldl step initSt
        (List.take 3 ["l: one", "b l", "l: two"])).blocks.length]? = some b ∧
      b.label = some "l" ∧ b.body.head? = some "l: two") ∧
    (∃ (jf : Nat) (q : Nat × CB),
      (⟨["l: one", "b l"], "l", false, none, some 1⟩ : Block).branch = some jf ∧
      (survivors ["l: one", "b l", "l: two"])[jf]? = some q ∧
      q.1 = (List.foldl step initSt
        (List.take 3 ["l: one", "b l", "l: two"])).blocks.length ∧
      q.2.label = some "l") := by
  have h := c8_amended ["l: one", "b l", "l: two"] 2 "l: two" "l"
    (by decide) (by decide) (by decide)
    (fun k lk hk hlk => by
      have h0 : (["l: one", "b l", "l: two"] : List String)[k]? = none :=
        List.getElem?_eq_none (by simp; omega)
      rw [h0] at hlk
      cases hlk)
  exact ⟨h.1, h.2.1, h.2.2
    [⟨["l: one", "b l"], "l", false, none, some 1⟩, ⟨["l: two"], "l", false, none, none⟩]
    0 (1, ⟨["l: one", "b l"], some "l", false, some "l", false⟩)
    ⟨["l: one", "b l"], "l", false, none, some 1⟩
    (by decide) (by decide) (by decide) (by decide) (by decide)⟩

example : getLabelMaybe "l0:" = some "l0" := by decide
example : getLabelMaybe "err" = none := by decide
example : getLabelMaybe ": x" = some "" := by decide
example : getBranchMaybe "b l0" = some ("b", "l0") := by decide
example : getBranchMaybe "bnz l1" = some ("bnz", "l1") := by decide
example : getBranchMaybe "b " = some ("b", "") := by decide
example : getBranchMaybe "bq x" = none := by decide
example : isTerminator "errata" = true := by decide
example : extractBlocks ["return"] = .ok [⟨["return"], "b0", false, none, none⟩] := by decide
example : extractBlocks ["b l0", "l0:", "return"] =
    .ok [⟨["b l0"], "b0", false, none, some 1⟩, ⟨["l0:", "return"], "l0", false, none, none⟩] := by
  decide
example : extractBlocks ["b missing", "return"] =
    .error ("branch target not found: " ++ String.mk [Char.ofNat 39] ++ "missing"
      ++ String.mk [Char.ofNat 39]) := by decide
example : extractBlocks ["b missing"] = .ok [⟨["b missing"], "b0", false, none, none⟩] := by
  decide
